import Mathlib

/-!
# Verification of the blob data codec and derivation helpers

This file is a shallow embedding, in Lean 4, of the blob codec of
`op-service/eth/blob.go` (the `FromData` encoder, the `ToData` decoder,
`encodeThreeBytes` and `Clear`) together with the derivation-side helpers
`BlobDataFromEVMTransactions`, `ReadVersionedBatcherHash` and
`ProcessSystemConfigUpdateLogEvent`.

Conventions of the embedding:

* A Go `[131072]byte` blob is a total function `Nat → Nat`; every byte the
  program writes is `< 256` and blobs read by the decoder are assumed
  byte-valued where needed.
* Go byte-slice payloads (`Data`) are `List Nat`.
* Go bitwise operations on bytes are rendered arithmetically, with the exact
  correspondence noted at each definition (`x & 0b00111111 = x % 64`,
  `(x & 0b11000000) >> 2 = x / 64 % 4 * 16`, `x >> 16 = x / 2^16`, and a
  bitwise-or of bit-disjoint operands is their sum).
* Fallible Go functions return `Except` (or pair their receiver with an
  `Option` error when the claim is about the receiver's final state).
-/

namespace BlobCodec

/-- `BlobSize = 4096 * 32` from blob.go. -/
def BlobSize : Nat := 4096 * 32

/-- `MaxBlobDataSize = (4*31+3)*1024 - 4` from blob.go. -/
def MaxBlobDataSize : Nat := (4 * 31 + 3) * 1024 - 4

/-- `EncodingVersion = 0` from blob.go. -/
def EncodingVersion : Nat := 0

/-- `FieldSize = 4 * 32`: size in bytes of a field composed of 4 field elements. -/
def FieldSize : Nat := 4 * 32

/-- `FieldCapacity = 31*4 + 3`: number of data bytes encoded in 4 field elements. -/
def FieldCapacity : Nat := 31 * 4 + 3

/-- A blob (`[131072]byte` in Go) as a total function from byte index to byte
value.  Indices `≥ BlobSize` are never written by the embedded code. -/
abbrev Blob := Nat → Nat

/-- Write one byte: `b[i] = v`. -/
def setByte (b : Blob) (i v : Nat) : Blob := fun j => if j = i then v else b j

/-- `Blob.Clear` from blob.go: sets every byte of the receiver to zero. -/
def clearBlob (_b : Blob) : Blob := fun _ => 0

/-- `data.getD i 0`: the byte of the payload at index `i`, or `0` past the
end.  Mirrors Go's convention that a `copy` out of an exhausted source simply
stops, leaving the (zero-initialised) destination bytes at zero. -/
def padGet (data : List Nat) (i : Nat) : Nat := data.getD i 0

/-- Models `n += copy(b[dst:dst+n], data[off:])`: copies
`min n (data.length - off)` bytes from the payload into the blob and returns
the updated blob together with the number of bytes copied. -/
def copyIn (b : Blob) (dst : Nat) (n : Nat) (data : List Nat) (off : Nat) :
    Blob × Nat :=
  match n with
  | 0 => (b, 0)
  | m + 1 =>
    if h : off < data.length then
      let r := copyIn (setByte b dst (data.get ⟨off, h⟩)) (dst + 1) m data (off + 1)
      (r.1, r.2 + 1)
    else (b, 0)

theorem setByte_same (b : Blob) (i v : Nat) : setByte b i v i = v := by
  simp [setByte]

theorem setByte_other (b : Blob) (i v j : Nat) (h : j ≠ i) :
    setByte b i v j = b j := by
  simp [setByte, h]

theorem copyIn_count (b : Blob) (dst n : Nat) (data : List Nat) (off : Nat) :
    (copyIn b dst n data off).2 = min n (data.length - off) := by
  induction n generalizing b dst off with
  | zero => simp [copyIn]
  | succ m ih =>
    by_cases h : off < data.length
    · simp only [copyIn, dif_pos h, ih]
      omega
    · simp only [copyIn, dif_neg h]
      omega

theorem copyIn_untouched (b : Blob) (dst n : Nat) (data : List Nat) (off : Nat)
    (j : Nat) (hj : j < dst ∨ dst + n ≤ j) :
    (copyIn b dst n data off).1 j = b j := by
  induction n generalizing b dst off with
  | zero => simp [copyIn]
  | succ m ih =>
    by_cases h : off < data.length
    · simp only [copyIn, dif_pos h]
      rw [ih _ _ _ (by omega), setByte_other _ _ _ _ (by omega)]
    · simp only [copyIn, dif_neg h]

theorem copyIn_written (b : Blob) (dst n : Nat) (data : List Nat) (off : Nat)
    (p : Nat) (hp : p < n) :
    (copyIn b dst n data off).1 (dst + p) =
      if off + p < data.length then padGet data (off + p) else b (dst + p) := by
  induction n generalizing b dst off p with
  | zero => omega
  | succ m ih =>
    by_cases h : off < data.length
    · simp only [copyIn, dif_pos h]
      match p with
      | 0 =>
        rw [copyIn_untouched _ _ _ _ _ _ (by omega)]
        simp only [Nat.add_zero, setByte_same, if_pos h]
        simp [padGet, List.getD_eq_getElem?_getD, List.getElem?_eq_getElem h]
      | q + 1 =>
        have := ih (setByte b dst (data.get ⟨off, h⟩)) (dst + 1) (off + 1) q (by omega)
        rw [show dst + (q + 1) = dst + 1 + q by omega, this,
          show off + 1 + q = off + (q + 1) by omega]
        by_cases h2 : off + (q + 1) < data.length
        · simp [h2]
        · rw [if_neg h2, if_neg h2, setByte_other _ _ _ _ (by omega)]
    · simp only [copyIn, dif_neg h]
      rw [if_neg (by omega)]

/-- Models the 3-iteration `remainingData` loop of `FromData`
(`for i := 0; i < 3; i++ { offset += copy(remainingData[i:i+1], data[offset:]); if offset == len(data) { break } }`,
unrolled): reads up to 3 payload bytes one at a time into a zero-initialised
3-byte buffer, stopping early once the payload is exhausted.  Returns the
buffer and the new offset. -/
def takeRemaining (data : List Nat) (off : Nat) : List Nat × Nat :=
  let step : Nat → Nat × Nat := fun o =>
    if o < data.length then (padGet data o, o + 1) else (0, o)
  let s0 := step off
  if s0.2 = data.length then ([s0.1, 0, 0], s0.2) else
  let s1 := step s0.2
  if s1.2 = data.length then ([s0.1, s1.1, 0], s1.2) else
  let s2 := step s1.2
  ([s0.1, s1.1, s2.1], s2.2)

/-- `encodeThreeBytes` from blob.go: distributes the 3 spill bytes
`rd = remainingData` into the four leading bytes of field group `index`.
Bitwise ops rendered arithmetically (valid for every `Nat`):
`x & 0b00111111 = x % 64` and `(x & 0b11000000) >> k = x / 64 % 4 * 2^(6-k)`;
the `|` of the three pieces (bits 4-5, 2-3 and 0-1) is their sum. -/
def encodeThreeBytes (index : Nat) (rd : List Nat) (b : Blob) : Blob :=
  let r0 := padGet rd 0
  let r1 := padGet rd 1
  let r2 := padGet rd 2
  setByte
    (setByte
      (setByte
        (setByte b (index * FieldSize) (r0 % 64))
        (index * FieldSize + 32) (r1 % 64))
      (index * FieldSize + 64) (r2 % 64))
    (index * FieldSize + 96) (r0 / 64 % 4 * 16 + r1 / 64 % 4 * 4 + r2 / 64 % 4)

/-- Result of the first-field loop of `FromData` (`for fieldNumber := 1;
fieldNumber < 4; ...`): either the early `return nil` was taken (`ret`),
or the loop finished and control continues with the final offset (`cont`). -/
inductive FFResult where
  | ret : Blob → FFResult
  | cont : Blob → Nat → FFResult

/-- The first-field loop of `FromData`: for `fieldNumber ∈ [1,4)`, copy up to
31 payload bytes into `b[fieldNumber*32+1 : fieldNumber*32+32]` and
`return nil` as soon as the offset reaches the payload length. -/
def firstFieldLoop (b : Blob) (data : List Nat) (off fieldNumber : Nat) :
    FFResult :=
  if _h : fieldNumber < 4 then
    let fsi := fieldNumber * 32
    let r := copyIn b (fsi + 1) 31 data off
    if off + r.2 = data.length then .ret r.1
    else firstFieldLoop r.1 data (off + r.2) (fieldNumber + 1)
  else .cont b off
termination_by 4 - fieldNumber

/-- The inner loop of `FromData`'s main loop (`for fieldElementNumber := 0;
fieldElementNumber < 4; ...`): copies up to 31 payload bytes into each
element tail `b[elementStartIndex+1 : elementStartIndex+32]` of group
`fieldNumber`, breaking once the payload is exhausted. -/
def encodeFieldElems (b : Blob) (data : List Nat) (off fieldNumber j : Nat) :
    Blob × Nat :=
  if _h : j < 4 then
    let esi := fieldNumber * FieldSize + j * 32
    let r := copyIn b (esi + 1) 31 data off
    if off + r.2 = data.length then (r.1, off + r.2)
    else encodeFieldElems r.1 data (off + r.2) fieldNumber (j + 1)
  else (b, off)
termination_by 4 - j

/-- The main loop of `FromData` (`for fieldNumber := 1; fieldNumber < 1024;
...`): per group, fill the four element tails, then read up to 3 spill bytes
and write them with `encodeThreeBytes`, breaking once the payload is
exhausted. -/
def encodeGroups (b : Blob) (data : List Nat) (off fieldNumber : Nat) :
    Blob × Nat :=
  if _h : fieldNumber < 1024 then
    let r := encodeFieldElems b data off fieldNumber 0
    if r.2 = data.length then r
    else
      let t := takeRemaining data r.2
      let b2 := encodeThreeBytes fieldNumber t.1 r.1
      if t.2 = data.length then (b2, t.2)
      else encodeGroups b2 data t.2 (fieldNumber + 1)
  else (b, off)
termination_by 1024 - fieldNumber

/-- Errors of `Blob.FromData` (Go returns `error` values built with
`fmt.Errorf`; the embedding tags them). -/
inductive EncError where
  | dataTooLarge (len : Nat)
  | lengthNotUint24
  | overflow (remaining : Nat)
deriving DecidableEq, Repr

/-- `Blob.FromData` from blob.go.  The Go method mutates its receiver and
returns an `error`; the embedding returns the final receiver state paired
with an optional error (`none` = Go's `return nil`).  The structure follows
the source line by line: the size check, `b.Clear()`, the header bytes
(`b[1] = EncodingVersion`, big-endian uint24 length in `b[2:5]`, where
`byte(x >> k & 0xFF) = x / 2^k % 256`), the initial `copy(b[5:32], data)`,
the first-field loop, the group-0 spill bytes, the main loop, and the final
overflow check. -/
def fromData (b0 : Blob) (data : List Nat) : Blob × Option EncError :=
  if data.length > MaxBlobDataSize then (b0, some (.dataTooLarge data.length))
  else
    let b := setByte (clearBlob b0) 1 EncodingVersion
    if data.length < 2 ^ 24 then
      let b := setByte (setByte (setByte b
        2 (data.length / 2 ^ 16 % 256))
        3 (data.length / 2 ^ 8 % 256))
        4 (data.length % 256)
      let r := copyIn b 5 27 data 0
      match firstFieldLoop r.1 data r.2 1 with
      | .ret b => (b, none)
      | .cont b off =>
        let t := takeRemaining data off
        let b := encodeThreeBytes 0 t.1 b
        if t.2 = data.length then (b, none)
        else
          let r2 := encodeGroups b data t.2 1
          if r2.2 < data.length then
            (r2.1, some (.overflow (data.length - r2.2)))
          else (r2.1, none)
    else (b, some .lengthNotUint24)

/-- The decoder's output buffer (`data := make(Data, BlobSize)` in Go, so it
starts all-zero), as a total function from index to byte value. -/
abbrev Buf := Nat → Nat

/-- Models `copy(buf[dst:...], b[src:...])` where exactly `n` bytes are
copied (`n` is the length of the shorter slice, computed at each call
site). -/
def copyOut (buf : Buf) (dst : Nat) (b : Blob) (src : Nat) (n : Nat) : Buf :=
  match n with
  | 0 => buf
  | m + 1 => copyOut (setByte buf dst (b src)) (dst + 1) b (src + 1) m

/-- Models `copy(buf[dst:...], vs)` for a short explicit byte list `vs`
(the 3-byte `decodedData` buffers of `ToData`). -/
def writeBytes (buf : Buf) (dst : Nat) : List Nat → Buf
  | [] => buf
  | v :: vs => writeBytes (setByte buf dst v) (dst + 1) vs

/-- The `decodedData` reconstruction of `ToData` for field group `i`:
`decodedData[j] = b[i*128 + j*32] & 0b00111111` or-ed with the matching
2-bit slice of `b[i*128 + 96]`.  Bitwise ops rendered arithmetically (valid
for every `Nat`): `x & 0b00111111 = x % 64`,
`(x & 0b00110000) << 2 = x / 16 % 4 * 64`,
`(x & 0b00001100) << 4 = x / 4 % 4 * 64`,
`(x & 0b00000011) << 6 = x % 4 * 64`; each `|` joins bits 0-5 with bits 6-7,
so it is a sum. -/
def decodeSpill (b : Blob) (i : Nat) : List Nat :=
  [b (i * FieldSize) % 64 + b (i * FieldSize + 96) / 16 % 4 * 64,
   b (i * FieldSize + 32) % 64 + b (i * FieldSize + 96) / 4 % 4 * 64,
   b (i * FieldSize + 64) % 64 + b (i * FieldSize + 96) % 4 * 64]

/-- Errors of `Blob.ToData`.  `badVersion` carries `firstField[0]` (the Go
message prints index 0, not the version byte itself); `fieldElementHighBit`
carries the `%d` argument of the Go message, which is the loop counter `i`
at the failing check. -/
inductive DecError where
  | badVersion (got : Nat)
  | lengthPrefixOutOfRange (dataLen : Nat)
  | fieldElementHighBit (i : Nat)
deriving DecidableEq, Repr

/-- The high-bit test `x & (1 << 7) != 0` of `ToData` on a byte `x`,
rendered arithmetically: bit 7 of `x` is `x / 128 % 2`. -/
def highBitSet (x : Nat) : Bool := x / 128 % 2 = 1

/-- The first-field element loop of `ToData` (`for i := 1; i < 4; ...`):
checks the leading byte of elements 1-3 of group 0 and copies each 31-byte
tail `b[i*32+1 : i*32+32]` to output positions `27 + 31*(i-1)` onward. -/
def decodeFirstFieldElems (buf : Buf) (b : Blob) (i : Nat) :
    Except DecError Buf :=
  if _h : i < 4 then
    if highBitSet (b (i * 32)) then .error (.fieldElementHighBit i)
    else
      decodeFirstFieldElems (copyOut buf (27 + 31 * (i - 1)) b (i * 32 + 1) 31)
        b (i + 1)
  else .ok buf
termination_by 4 - i

/-- The inner loop of `ToData`'s main loop (`for j := 0; j < 4; ...`):
checks the leading byte of element `j` of group `i` and copies its tail to
`buf[FieldCapacity*i + j*31 - 4 : ...]`.  On failure the error carries the
group counter `i` (exactly the argument the Go message formats). -/
def decodeGroupElems (buf : Buf) (b : Blob) (i j : Nat) :
    Except DecError Buf :=
  if _h : j < 4 then
    if highBitSet (b (i * FieldSize + j * 32)) then
      .error (.fieldElementHighBit i)
    else
      decodeGroupElems
        (copyOut buf (FieldCapacity * i + j * 31 - 4) b
          (i * FieldSize + j * 32 + 1) 31)
        b i (j + 1)
  else .ok buf
termination_by 4 - j

/-- The main loop of `ToData` (`for i := 1; i < 1024; ...`): per group,
copy the four element tails, then reconstruct the 3 spill bytes and write
them at `buf[120 + FieldCapacity*i]`. -/
def decodeGroups (buf : Buf) (b : Blob) (i : Nat) : Except DecError Buf :=
  if _h : i < 1024 then
    match decodeGroupElems buf b i 0 with
    | .error e => .error e
    | .ok buf2 =>
      decodeGroups (writeBytes buf2 (120 + FieldCapacity * i) (decodeSpill b i))
        b (i + 1)
  else .ok buf
termination_by 1024 - i

/-- The 24-bit big-endian length prefix read by `ToData`:
`int32(b[2])<<16 | int32(b[3])<<8 | int32(b[4])`.  For byte values the three
summands occupy disjoint bit ranges, so the `|`s are sums. -/
def dataLenOf (b : Blob) : Nat := b 2 * 2 ^ 16 + b 3 * 2 ^ 8 + b 4

/-- `Blob.ToData` from blob.go: version check on `b[1]`, length-prefix
check (`dataLen > len(data)` with `len(data) = BlobSize`), the group-0
copies and spill reconstruction, the main loop, and the final truncation
`data = data[:dataLen]` (the first `dataLen` bytes of the output buffer). -/
def toData (b : Blob) : Except DecError (List Nat) :=
  if b 1 ≠ EncodingVersion then .error (.badVersion (b 0))
  else if dataLenOf b > BlobSize then .error (.lengthPrefixOutOfRange (dataLenOf b))
  else
    let buf : Buf := fun _ => 0
    let buf := copyOut buf 0 b 5 27
    match decodeFirstFieldElems buf b 1 with
    | .error e => .error e
    | .ok buf2 =>
      let buf3 := writeBytes buf2 (27 + 31 * 3) (decodeSpill b 0)
      match decodeGroups buf3 b 1 with
      | .error e => .error e
      | .ok buf4 => .ok ((List.range (dataLenOf b)).map buf4)

/-! ## Encoder characterisation -/

theorem padGet_of_le (data : List Nat) (i : Nat) (h : data.length ≤ i) :
    padGet data i = 0 :=
  List.getD_eq_default _ _ h

theorem takeRemaining_spec (data : List Nat) (off : Nat)
    (h : off < data.length) :
    takeRemaining data off =
      ([padGet data off, padGet data (off + 1), padGet data (off + 2)],
        min data.length (off + 3)) := by
  simp only [takeRemaining, if_pos h]
  by_cases h1 : off + 1 = data.length
  · simp only [if_pos h1]
    rw [padGet_of_le data (off + 1) (by omega), padGet_of_le data (off + 2) (by omega),
      show min data.length (off + 3) = off + 1 by omega]
  · simp only [if_neg h1, if_pos (show off + 1 < data.length by omega)]
    by_cases h2 : off + 1 + 1 = data.length
    · simp only [if_pos h2]
      rw [padGet_of_le data (off + 2) (by omega),
        show min data.length (off + 3) = off + 1 + 1 by omega]
    · simp only [if_neg h2, if_pos (show off + 1 + 1 < data.length by omega)]
      rw [show off + 1 + 1 = off + 2 by omega,
        show min data.length (off + 3) = off + 2 + 1 by omega]

theorem encodeThreeBytes_elem0 (index : Nat) (rd : List Nat) (b : Blob) :
    encodeThreeBytes index rd b (index * FieldSize) = padGet rd 0 % 64 := by
  simp only [encodeThreeBytes]
  rw [setByte_other _ _ _ _ (by omega), setByte_other _ _ _ _ (by omega),
    setByte_other _ _ _ _ (by omega), setByte_same]

theorem encodeThreeBytes_elem1 (index : Nat) (rd : List Nat) (b : Blob) :
    encodeThreeBytes index rd b (index * FieldSize + 32) = padGet rd 1 % 64 := by
  simp only [encodeThreeBytes]
  rw [setByte_other _ _ _ _ (by omega), setByte_other _ _ _ _ (by omega),
    setByte_same]

theorem encodeThreeBytes_elem2 (index : Nat) (rd : List Nat) (b : Blob) :
    encodeThreeBytes index rd b (index * FieldSize + 64) = padGet rd 2 % 64 := by
  simp only [encodeThreeBytes]
  rw [setByte_other _ _ _ _ (by omega), setByte_same]

theorem encodeThreeBytes_elem3 (index : Nat) (rd : List Nat) (b : Blob) :
    encodeThreeBytes index rd b (index * FieldSize + 96) =
      padGet rd 0 / 64 % 4 * 16 + padGet rd 1 / 64 % 4 * 4 + padGet rd 2 / 64 % 4 := by
  simp only [encodeThreeBytes]
  rw [setByte_same]

theorem encodeThreeBytes_untouched (index : Nat) (rd : List Nat) (b : Blob)
    (idx : Nat) (h0 : idx ≠ index * FieldSize) (h1 : idx ≠ index * FieldSize + 32)
    (h2 : idx ≠ index * FieldSize + 64) (h3 : idx ≠ index * FieldSize + 96) :
    encodeThreeBytes index rd b idx = b idx := by
  simp only [encodeThreeBytes]
  rw [setByte_other _ _ _ _ h3, setByte_other _ _ _ _ h2,
    setByte_other _ _ _ _ h1, setByte_other _ _ _ _ h0]

/-- Closed-form evaluation of `encodeThreeBytes` at an arbitrary index. -/
theorem encodeThreeBytes_eval (index : Nat) (rd : List Nat) (b : Blob)
    (idx : Nat) :
    encodeThreeBytes index rd b idx =
      if idx = 128 * index + 96 then
        padGet rd 0 / 64 % 4 * 16 + padGet rd 1 / 64 % 4 * 4 + padGet rd 2 / 64 % 4
      else if idx = 128 * index + 64 then padGet rd 2 % 64
      else if idx = 128 * index + 32 then padGet rd 1 % 64
      else if idx = 128 * index then padGet rd 0 % 64
      else b idx := by
  simp only [encodeThreeBytes, setByte, FieldSize]
  split_ifs <;> first | rfl | omega

/-- Behaviour of the inner element loop of the encoder's main loop, entering
at element `j` of group `f` with `n = 4 - j` iterations left: the final
offset is `min len (off + 31*(4-j))`, bytes outside the remaining tails of
group `f` are untouched, and each remaining tail byte receives the payload
byte at the corresponding offset (or is untouched if the payload ran out). -/
theorem encodeFieldElems_spec (data : List Nat) (f : Nat) :
    ∀ n j b off, j + n = 4 → off ≤ data.length →
      ((encodeFieldElems b data off f j).2 = min data.length (off + 31 * (4 - j)) ∧
      (∀ idx, idx % 32 = 0 ∨ idx < 128 * f + 32 * j ∨ 128 * f + 128 ≤ idx →
        (encodeFieldElems b data off f j).1 idx = b idx) ∧
      (∀ jp q, j ≤ jp → jp < 4 → q < 31 →
        (encodeFieldElems b data off f j).1 (128 * f + 32 * jp + 1 + q) =
          if off + 31 * (jp - j) + q < data.length
          then padGet data (off + 31 * (jp - j) + q)
          else b (128 * f + 32 * jp + 1 + q))) := by
  intro n
  induction n with
  | zero =>
    intro j b off hj hoff
    have hj4 : j = 4 := by omega
    subst hj4
    rw [encodeFieldElems, dif_neg (by omega)]
    exact ⟨by simp; omega, fun idx _ => rfl, fun jp q h1 h2 _ => by omega⟩
  | succ m ih =>
    intro j b off hj hoff
    have hj4 : j < 4 := by omega
    rw [encodeFieldElems, dif_pos hj4]
    simp only [FieldSize]
    have hc := copyIn_count b (f * (4 * 32) + j * 32 + 1) 31 data off
    by_cases hend : off + (copyIn b (f * (4 * 32) + j * 32 + 1) 31 data off).2 = data.length
    · simp only [if_pos hend]
      refine ⟨by omega, ?_, ?_⟩
      · intro idx hidx
        exact copyIn_untouched _ _ _ _ _ _ (by omega)
      · intro jp q h1 h2 hq
        rcases Nat.eq_or_lt_of_le h1 with h1e | h1l
        · subst h1e
          have hw := copyIn_written b (f * (4 * 32) + j * 32 + 1) 31 data off q hq
          rw [show 128 * f + 32 * j + 1 + q = f * (4 * 32) + j * 32 + 1 + q by omega, hw,
            show j - j = 0 by omega]
          simp only [Nat.mul_zero, Nat.add_zero]
        · rw [copyIn_untouched _ _ _ _ _ _ (by omega),
            if_neg (by omega)]
    · simp only [if_neg hend]
      have hlt : off + 31 < data.length := by omega
      have hrec := ih (j + 1) (copyIn b (f * (4 * 32) + j * 32 + 1) 31 data off).1
        (off + (copyIn b (f * (4 * 32) + j * 32 + 1) 31 data off).2) (by omega) (by omega)
      refine ⟨?_, ?_, ?_⟩
      · rw [hrec.1]
        omega
      · intro idx hidx
        rw [hrec.2.1 idx (by omega)]
        exact copyIn_untouched _ _ _ _ _ _ (by omega)
      · intro jp q h1 h2 hq
        rcases Nat.eq_or_lt_of_le h1 with h1e | h1l
        · subst h1e
          rw [hrec.2.1 _ (by omega),
            show 128 * f + 32 * j + 1 + q = f * (4 * 32) + j * 32 + 1 + q by omega,
            copyIn_written b _ 31 data off q hq, if_pos (by omega),
            show j - j = 0 by omega]
          rw [show off + 31 * 0 + q = off + q by omega, if_pos (by omega)]
        · have := hrec.2.2 jp q (by omega) h2 hq
          rw [this, show off + (copyIn b (f * (4 * 32) + j * 32 + 1) 31 data off).2 +
              31 * (jp - (j + 1)) + q = off + 31 * (jp - j) + q by omega]
          by_cases hin : off + 31 * (jp - j) + q < data.length
          · rw [if_pos hin, if_pos hin]
          · rw [if_neg hin, if_neg hin,
              copyIn_untouched _ _ _ _ _ _ (by omega)]

/-- Behaviour of the encoder's main loop entering at group `f ∈ [1, 1024)`
with offset `127*f - 4` strictly inside the payload and every blob byte from
`128*f` on still zero: the loop consumes exactly the remaining payload,
leaves bytes below `128*f` untouched, and fills the tails and spill bytes of
every group in `[f, 1024)` (tail bytes past the payload end stay zero, which
`padGet` also returns). -/
theorem encodeGroups_spec (data : List Nat) (hdl : data.length ≤ 130044) :
    ∀ n f b off, f + n = 1024 → 1 ≤ f → off = 127 * f - 4 →
      off < data.length → (∀ idx, 128 * f ≤ idx → b idx = 0) →
      ((encodeGroups b data off f).2 = data.length ∧
      (∀ idx, idx < 128 * f → (encodeGroups b data off f).1 idx = b idx) ∧
      (∀ g jp q, f ≤ g → g < 1024 → jp < 4 → q < 31 →
        (encodeGroups b data off f).1 (128 * g + 32 * jp + 1 + q) =
          padGet data (127 * g - 4 + 31 * jp + q)) ∧
      (∀ g, f ≤ g → g < 1024 →
        (encodeGroups b data off f).1 (128 * g) = padGet data (127 * g + 120) % 64 ∧
        (encodeGroups b data off f).1 (128 * g + 32) = padGet data (127 * g + 121) % 64 ∧
        (encodeGroups b data off f).1 (128 * g + 64) = padGet data (127 * g + 122) % 64 ∧
        (encodeGroups b data off f).1 (128 * g + 96) =
          padGet data (127 * g + 120) / 64 % 4 * 16 +
          padGet data (127 * g + 121) / 64 % 4 * 4 +
          padGet data (127 * g + 122) / 64 % 4)) := by
  intro n
  induction n with
  | zero =>
    intro f b off hf h1f hoff hlt _hz
    exact absurd hlt (by omega)
  | succ m ih =>
    intro f b off hf h1f hoff hlt hz
    have hf1024 : f < 1024 := by omega
    rw [encodeGroups]
    simp only [dif_pos hf1024]
    obtain ⟨he2, heU, heW⟩ :=
      encodeFieldElems_spec data f 4 0 b off (by omega) (by omega)
    have hzero : ∀ idx, idx % 32 = 0 → 128 * f ≤ idx →
        (encodeFieldElems b data off f 0).1 idx = 0 := by
      intro idx hm hge
      rw [heU idx (Or.inl hm)]
      exact hz idx hge
    by_cases hend : (encodeFieldElems b data off f 0).2 = data.length
    · simp only [if_pos hend]
      have hlen : data.length ≤ off + 124 := by
        rw [hend] at he2; omega
      refine ⟨hend, ?_, ?_, ?_⟩
      · intro idx hidx
        exact heU idx (by omega)
      · intro g jp q hfg hg hjp hq
        rcases Nat.eq_or_lt_of_le hfg with hfg | hfg
        · subst hfg
          rw [heW jp q (by omega) hjp hq]
          by_cases hin : off + 31 * (jp - 0) + q < data.length
          · rw [if_pos hin, show off + 31 * (jp - 0) + q = 127 * f - 4 + 31 * jp + q by omega]
          · rw [if_neg hin, hz _ (by omega), padGet_of_le data _ (by omega)]
        · rw [heU _ (by omega), hz _ (by omega), padGet_of_le data _ (by omega)]
      · intro g hfg hg
        refine ⟨?_, ?_, ?_, ?_⟩ <;>
          · rw [hzero _ (by omega) (by omega)]
            repeat rw [padGet_of_le data _ (by omega)]
    · simp only [if_neg hend]
      have hE2 : (encodeFieldElems b data off f 0).2 = off + 124 := by omega
      rw [hE2, takeRemaining_spec data (off + 124) (by omega)]
      by_cases hend2 : min data.length (off + 124 + 3) = data.length
      · simp only [if_pos hend2]
        have hlen : data.length ≤ off + 127 := by omega
        refine ⟨hend2, ?_, ?_, ?_⟩
        · intro idx hidx
          rw [encodeThreeBytes_eval, if_neg (by omega), if_neg (by omega),
            if_neg (by omega), if_neg (by omega)]
          exact heU idx (by omega)
        · intro g jp q hfg hg hjp hq
          rw [encodeThreeBytes_eval, if_neg (by omega), if_neg (by omega),
            if_neg (by omega), if_neg (by omega)]
          rcases Nat.eq_or_lt_of_le hfg with hfg | hfg
          · subst hfg
            rw [heW jp q (by omega) hjp hq]
            by_cases hin : off + 31 * (jp - 0) + q < data.length
            · rw [if_pos hin, show off + 31 * (jp - 0) + q = 127 * f - 4 + 31 * jp + q by omega]
            · rw [if_neg hin, hz _ (by omega), padGet_of_le data _ (by omega)]
          · rw [heU _ (by omega), hz _ (by omega), padGet_of_le data _ (by omega)]
        · intro g hfg hg
          rcases Nat.eq_or_lt_of_le hfg with hfg | hfg
          · subst hfg
            refine ⟨?_, ?_, ?_, ?_⟩
            · rw [encodeThreeBytes_eval, if_neg (by omega), if_neg (by omega),
                if_neg (by omega), if_pos rfl,
                show off + 124 = 127 * f + 120 by omega]
              simp [padGet]
            · rw [encodeThreeBytes_eval, if_neg (by omega), if_neg (by omega),
                if_pos rfl, show off + 124 + 1 = 127 * f + 121 by omega]
              simp [padGet]
            · rw [encodeThreeBytes_eval, if_neg (by omega), if_pos rfl,
                show off + 124 + 2 = 127 * f + 122 by omega]
              simp [padGet]
            · rw [encodeThreeBytes_eval, if_pos rfl,
                show off + 124 + 2 = 127 * f + 122 by omega,
                show off + 124 + 1 = 127 * f + 121 by omega,
                show off + 124 = 127 * f + 120 by omega]
              simp [padGet]
          · refine ⟨?_, ?_, ?_, ?_⟩ <;>
              · rw [encodeThreeBytes_eval, if_neg (by omega), if_neg (by omega),
                  if_neg (by omega), if_neg (by omega), hzero _ (by omega) (by omega)]
                repeat rw [padGet_of_le data _ (by omega)]
      · simp only [if_neg hend2]
        have hoff2 : min data.length (off + 124 + 3) = off + 127 := by omega
        rw [hoff2]
        have hzB2 : ∀ idx, 128 * (f + 1) ≤ idx →
            encodeThreeBytes f
              [padGet data (off + 124), padGet data (off + 124 + 1),
                padGet data (off + 124 + 2)] (encodeFieldElems b data off f 0).1 idx = 0 := by
          intro idx hidx
          rw [encodeThreeBytes_eval, if_neg (by omega), if_neg (by omega),
            if_neg (by omega), if_neg (by omega), heU _ (by omega), hz _ (by omega)]
        obtain ⟨ih1, ih2, ih3, ih4⟩ := ih (f + 1) _ (off + 127) (by omega) (by omega)
          (by omega) (by omega) hzB2
        refine ⟨ih1, ?_, ?_, ?_⟩
        · intro idx hidx
          rw [ih2 idx (by omega), encodeThreeBytes_eval, if_neg (by omega),
            if_neg (by omega), if_neg (by omega), if_neg (by omega)]
          exact heU idx (by omega)
        · intro g jp q hfg hg hjp hq
          rcases Nat.eq_or_lt_of_le hfg with hfg | hfg
          · subst hfg
            rw [ih2 _ (by omega), encodeThreeBytes_eval, if_neg (by omega),
              if_neg (by omega), if_neg (by omega), if_neg (by omega),
              heW jp q (by omega) hjp hq,
              if_pos (by omega),
              show off + 31 * (jp - 0) + q = 127 * f - 4 + 31 * jp + q by omega]
          · exact ih3 g jp q (by omega) hg hjp hq
        · intro g hfg hg
          rcases Nat.eq_or_lt_of_le hfg with hfg | hfg
          · subst hfg
            refine ⟨?_, ?_, ?_, ?_⟩
            · rw [ih2 _ (by omega), encodeThreeBytes_eval, if_neg (by omega),
                if_neg (by omega), if_neg (by omega), if_pos rfl,
                show off + 124 = 127 * f + 120 by omega]
              simp [padGet]
            · rw [ih2 _ (by omega), encodeThreeBytes_eval, if_neg (by omega),
                if_neg (by omega), if_pos rfl,
                show off + 124 + 1 = 127 * f + 121 by omega]
              simp [padGet]
            · rw [ih2 _ (by omega), encodeThreeBytes_eval, if_neg (by omega),
                if_pos rfl, show off + 124 + 2 = 127 * f + 122 by omega]
              simp [padGet]
            · rw [ih2 _ (by omega), encodeThreeBytes_eval, if_pos rfl,
                show off + 124 + 2 = 127 * f + 122 by omega,
                show off + 124 + 1 = 127 * f + 121 by omega,
                show off + 124 = 127 * f + 120 by omega]
              simp [padGet]
          · exact ih4 g (by omega) hg

/-- Behaviour of the first-field loop, entering at element `i ∈ [1, 4]` with
offset `min len (27 + 31*(i-1))`: if the payload fits in the first field
group (`len ≤ 120`) the loop takes the early `return nil` path, otherwise it
finishes with offset `120`.  Either way bytes outside the remaining tails of
group 0 are untouched, and each remaining tail byte receives the payload
byte at the corresponding offset (or is untouched past the payload end). -/
theorem firstFieldLoop_spec (data : List Nat) :
    ∀ n i b off, i + n = 4 → 1 ≤ i →
      off = min data.length (27 + 31 * (i - 1)) →
      (i = 4 → off ≠ data.length) →
      ((data.length ≤ 120 → ∃ B, firstFieldLoop b data off i = .ret B ∧
        (∀ idx, idx % 32 = 0 ∨ idx < 32 * i ∨ 128 ≤ idx → B idx = b idx) ∧
        (∀ ip q, i ≤ ip → ip < 4 → q < 31 →
          B (32 * ip + 1 + q) =
            if 27 + 31 * (ip - 1) + q < data.length
            then padGet data (27 + 31 * (ip - 1) + q)
            else b (32 * ip + 1 + q))) ∧
      (120 < data.length → ∃ B, firstFieldLoop b data off i = .cont B 120 ∧
        (∀ idx, idx % 32 = 0 ∨ idx < 32 * i ∨ 128 ≤ idx → B idx = b idx) ∧
        (∀ ip q, i ≤ ip → ip < 4 → q < 31 →
          B (32 * ip + 1 + q) =
            if 27 + 31 * (ip - 1) + q < data.length
            then padGet data (27 + 31 * (ip - 1) + q)
            else b (32 * ip + 1 + q)))) := by
  intro n
  induction n with
  | zero =>
    intro i b off hi h1i hoff hne
    constructor
    · intro h120
      exact absurd (by omega : off = data.length) (hne (by omega))
    · intro h120
      refine ⟨b, ?_, fun idx _ => rfl, fun ip q hip1 hip2 _ => by omega⟩
      rw [firstFieldLoop, dif_neg (by omega), show off = 120 by omega]
  | succ m ih =>
    intro i b off hi h1i hoff hne
    have hi4 : i < 4 := by omega
    have hcc := copyIn_count b (i * 32 + 1) 31 data off
    by_cases hret : off + (copyIn b (i * 32 + 1) 31 data off).2 = data.length
    · have hlen : data.length ≤ 120 := by omega
      constructor
      · intro _
        refine ⟨(copyIn b (i * 32 + 1) 31 data off).1, ?_, ?_, ?_⟩
        · rw [firstFieldLoop, dif_pos hi4]
          simp only [if_pos hret]
        · intro idx hidx
          exact copyIn_untouched _ _ _ _ _ _ (by omega)
        · intro ip q hip1 hip2 hq
          rcases Nat.eq_or_lt_of_le hip1 with hip | hip
          · subst hip
            by_cases hoffip : off = 27 + 31 * (i - 1)
            · rw [show 32 * i + 1 + q = i * 32 + 1 + q by omega,
                copyIn_written b _ 31 data off q hq, ← hoffip]
            · have hoffl : off = data.length := by omega
              rw [show 32 * i + 1 + q = i * 32 + 1 + q by omega,
                copyIn_written b _ 31 data off q hq, if_neg (by omega),
                if_neg (by omega),
                show i * 32 + 1 + q = 32 * i + 1 + q by omega]
          · rw [copyIn_untouched _ _ _ _ _ _ (by omega), if_neg (by omega)]
      · intro h120
        exact absurd h120 (by omega)
    · have hoffe : off = 27 + 31 * (i - 1) := by omega
      have hrec := ih (i + 1) (copyIn b (i * 32 + 1) 31 data off).1
        (off + (copyIn b (i * 32 + 1) 31 data off).2) (by omega) (by omega)
        (by omega) (fun _ => hret)
      have hstep : firstFieldLoop b data off i =
          firstFieldLoop (copyIn b (i * 32 + 1) 31 data off).1 data
            (off + (copyIn b (i * 32 + 1) 31 data off).2) (i + 1) := by
        rw [firstFieldLoop, dif_pos hi4]
        simp only [if_neg hret]
      constructor
      · intro h120
        obtain ⟨B, hB, hBU, hBW⟩ := hrec.1 h120
        refine ⟨B, by rw [hstep, hB], ?_, ?_⟩
        · intro idx hidx
          rw [hBU idx (by omega)]
          exact copyIn_untouched _ _ _ _ _ _ (by omega)
        · intro ip q hip1 hip2 hq
          rcases Nat.eq_or_lt_of_le hip1 with hip | hip
          · subst hip
            rw [hBU _ (by omega), show 32 * i + 1 + q = i * 32 + 1 + q by omega,
              copyIn_written b _ 31 data off q hq, ← hoffe,
              show i * 32 + 1 + q = 32 * i + 1 + q by omega]
          · rw [hBW ip q (by omega) hip2 hq]
            by_cases hin : 27 + 31 * (ip - 1) + q < data.length
            · rw [if_pos hin, if_pos hin]
            · rw [if_neg hin, if_neg hin,
                copyIn_untouched _ _ _ _ _ _ (by omega)]
      · intro h120
        obtain ⟨B, hB, hBU, hBW⟩ := hrec.2 h120
        refine ⟨B, by rw [hstep, hB], ?_, ?_⟩
        · intro idx hidx
          rw [hBU idx (by omega)]
          exact copyIn_untouched _ _ _ _ _ _ (by omega)
        · intro ip q hip1 hip2 hq
          rcases Nat.eq_or_lt_of_le hip1 with hip | hip
          · subst hip
            rw [hBU _ (by omega), show 32 * i + 1 + q = i * 32 + 1 + q by omega,
              copyIn_written b _ 31 data off q hq, ← hoffe,
              show i * 32 + 1 + q = 32 * i + 1 + q by omega]
          · rw [hBW ip q (by omega) hip2 hq]
            by_cases hin : 27 + 31 * (ip - 1) + q < data.length
            · rw [if_pos hin, if_pos hin]
            · rw [if_neg hin, if_neg hin,
                copyIn_untouched _ _ _ _ _ _ (by omega)]

/-- Closed-form evaluation of the header writes of `fromData`
(`b.Clear()`, `b[1] = EncodingVersion`, `b[2..5] = big-endian uint24 length`). -/
theorem headerWrites_eval (b0 : Blob) (len idx : Nat) :
    setByte (setByte (setByte (setByte (clearBlob b0) 1 EncodingVersion)
        2 (len / 2 ^ 16 % 256)) 3 (len / 2 ^ 8 % 256)) 4 (len % 256) idx =
      if idx = 4 then len % 256
      else if idx = 3 then len / 2 ^ 8 % 256
      else if idx = 2 then len / 2 ^ 16 % 256
      else if idx = 1 then EncodingVersion
      else 0 := by
  simp only [setByte, clearBlob]

/-- Full pointwise characterisation of a blob produced by a successful
`fromData data`: the header bytes, the payload bytes of group 0 (27 bytes in
element 0, 31 in each of elements 1-3), the four spill bytes of every group,
and the payload bytes of every later group.  `padGet` returns `0` past the
payload end, matching the zeroed untouched bytes. -/
def EncodedAt (data : List Nat) (B : Blob) : Prop :=
  B 1 = 0 ∧
  B 2 = data.length / 2 ^ 16 % 256 ∧
  B 3 = data.length / 2 ^ 8 % 256 ∧
  B 4 = data.length % 256 ∧
  (∀ q, q < 27 → B (5 + q) = padGet data q) ∧
  (∀ i q, 1 ≤ i → i < 4 → q < 31 →
    B (32 * i + 1 + q) = padGet data (27 + 31 * (i - 1) + q)) ∧
  (∀ g, g < 1024 →
    B (128 * g) = padGet data (127 * g + 120) % 64 ∧
    B (128 * g + 32) = padGet data (127 * g + 121) % 64 ∧
    B (128 * g + 64) = padGet data (127 * g + 122) % 64 ∧
    B (128 * g + 96) = padGet data (127 * g + 120) / 64 % 4 * 16 +
      padGet data (127 * g + 121) / 64 % 4 * 4 +
      padGet data (127 * g + 122) / 64 % 4) ∧
  (∀ g jp q, 1 ≤ g → g < 1024 → jp < 4 → q < 31 →
    B (128 * g + 32 * jp + 1 + q) = padGet data (127 * g - 4 + 31 * jp + q))

/-- Master encoder theorem: on any payload within `MaxBlobDataSize`,
`fromData` returns no error and the resulting blob satisfies the full
pointwise characterisation `EncodedAt`. -/
theorem fromData_spec (b0 : Blob) (data : List Nat)
    (h : data.length ≤ MaxBlobDataSize) :
    (fromData b0 data).2 = none ∧ EncodedAt data (fromData b0 data).1 := by
  have h24 : (130044 : Nat) < 2 ^ 24 := by norm_num
  have hlen : data.length ≤ 130044 := by
    have hM : MaxBlobDataSize = 130044 := by norm_num [MaxBlobDataSize]
    omega
  have hc1 : ¬ data.length > MaxBlobDataSize := by omega
  have hc2 : data.length < 2 ^ 24 := by omega
  simp only [fromData, if_neg hc1, if_pos hc2]
  set H : Blob := setByte (setByte (setByte (setByte (clearBlob b0)
    1 EncodingVersion) 2 (data.length / 2 ^ 16 % 256))
    3 (data.length / 2 ^ 8 % 256)) 4 (data.length % 256) with hH
  set c0 := copyIn H 5 27 data 0 with hc0
  have hHe : ∀ idx, H idx =
      if idx = 4 then data.length % 256
      else if idx = 3 then data.length / 2 ^ 8 % 256
      else if idx = 2 then data.length / 2 ^ 16 % 256
      else if idx = 1 then EncodingVersion
      else 0 := by
    intro idx
    rw [hH]
    exact headerWrites_eval b0 data.length idx
  have hpre0 : ∀ idx, 32 ≤ idx → c0.1 idx = 0 := by
    intro idx hidx
    rw [hc0, copyIn_untouched _ _ _ _ _ _ (by omega), hHe, if_neg (by omega),
      if_neg (by omega), if_neg (by omega), if_neg (by omega)]
  have hpre00 : c0.1 0 = 0 := by
    rw [hc0, copyIn_untouched _ _ _ _ _ _ (by omega), hHe, if_neg (by omega),
      if_neg (by omega), if_neg (by omega), if_neg (by omega)]
  have hpreMul : ∀ idx, idx % 32 = 0 → c0.1 idx = 0 := by
    intro idx hidx
    rcases Nat.eq_zero_or_pos idx with h0 | h0
    · rw [h0, hpre00]
    · exact hpre0 idx (by omega)
  have hpre1 : c0.1 1 = 0 := by
    rw [hc0, copyIn_untouched _ _ _ _ _ _ (by omega), hHe, if_neg (by omega),
      if_neg (by omega), if_neg (by omega), if_pos rfl]
    rfl
  have hpre2 : c0.1 2 = data.length / 2 ^ 16 % 256 := by
    rw [hc0, copyIn_untouched _ _ _ _ _ _ (by omega), hHe, if_neg (by omega),
      if_neg (by omega), if_pos rfl]
  have hpre3 : c0.1 3 = data.length / 2 ^ 8 % 256 := by
    rw [hc0, copyIn_untouched _ _ _ _ _ _ (by omega), hHe, if_neg (by omega),
      if_pos rfl]
  have hpre4 : c0.1 4 = data.length % 256 := by
    rw [hc0, copyIn_untouched _ _ _ _ _ _ (by omega), hHe, if_pos rfl]
  have hpre5 : ∀ q, q < 27 → c0.1 (5 + q) = padGet data q := by
    intro q hq
    rw [hc0, copyIn_written H 5 27 data 0 q hq]
    by_cases hin : 0 + q < data.length
    · rw [if_pos hin, show 0 + q = q by omega]
    · rw [if_neg hin, hHe, if_neg (by omega), if_neg (by omega),
        if_neg (by omega), if_neg (by omega), padGet_of_le data q (by omega)]
  obtain ⟨spec1, spec2⟩ := firstFieldLoop_spec data 3 1 c0.1 c0.2
    (by omega) (by omega) (by rw [hc0, copyIn_count]; omega) (by omega)
  by_cases h120 : data.length ≤ 120
  · obtain ⟨B, hB, hU, hW⟩ := spec1 h120
    rw [hB]
    simp only []
    refine ⟨trivial, ?_, ?_, ?_, ?_, ?_, ?_, ?_, ?_⟩
    · rw [hU 1 (by omega), hpre1]
    · rw [hU 2 (by omega), hpre2]
    · rw [hU 3 (by omega), hpre3]
    · rw [hU 4 (by omega), hpre4]
    · intro q hq
      rw [hU (5 + q) (by omega), hpre5 q hq]
    · intro i q h1 h2 hq
      rw [hW i q h1 h2 hq]
      by_cases hin : 27 + 31 * (i - 1) + q < data.length
      · rw [if_pos hin]
      · rw [if_neg hin, hpre0 _ (by omega), padGet_of_le data _ (by omega)]
    · intro g hg
      refine ⟨?_, ?_, ?_, ?_⟩
      · rw [hU _ (Or.inl (by omega)), hpreMul _ (by omega),
          padGet_of_le data _ (by omega)]
      · rw [hU _ (Or.inl (by omega)), hpreMul _ (by omega),
          padGet_of_le data _ (by omega)]
      · rw [hU _ (Or.inl (by omega)), hpreMul _ (by omega),
          padGet_of_le data _ (by omega)]
      · rw [hU _ (Or.inl (by omega)), hpreMul _ (by omega),
          padGet_of_le data (127 * g + 120) (by omega),
          padGet_of_le data (127 * g + 121) (by omega),
          padGet_of_le data (127 * g + 122) (by omega)]
    · intro g jp q hg1 hg2 hjp hq
      rw [hU _ (by omega), hpre0 _ (by omega), padGet_of_le data _ (by omega)]
  · obtain ⟨B, hB, hU, hW⟩ := spec2 (by omega)
    rw [hB]
    simp only []
    rw [takeRemaining_spec data 120 (by omega)]
    simp only [Prod.fst, Prod.snd]
    have hB1 : B 1 = 0 := by rw [hU 1 (by omega), hpre1]
    have hB2 : B 2 = data.length / 2 ^ 16 % 256 := by rw [hU 2 (by omega), hpre2]
    have hB3 : B 3 = data.length / 2 ^ 8 % 256 := by rw [hU 3 (by omega), hpre3]
    have hB4 : B 4 = data.length % 256 := by rw [hU 4 (by omega), hpre4]
    have hB5 : ∀ q, q < 27 → B (5 + q) = padGet data q := by
      intro q hq
      rw [hU (5 + q) (by omega), hpre5 q hq]
    have hBff : ∀ i q, 1 ≤ i → i < 4 → q < 31 →
        B (32 * i + 1 + q) = padGet data (27 + 31 * (i - 1) + q) := by
      intro i q h1 h2 hq
      rw [hW i q h1 h2 hq, if_pos (by omega)]
    have hBz : ∀ idx, 128 ≤ idx → B idx = 0 := by
      intro idx hidx
      rw [hU idx (by omega), hpre0 _ (by omega)]
    have hBmul : ∀ idx, idx % 32 = 0 → 128 ≤ idx → B idx = 0 := by
      intro idx h1 h2
      exact hBz idx h2
    by_cases h123 : data.length ≤ 123
    · rw [if_pos (by omega)]
      simp only [Prod.fst, Prod.snd]
      refine ⟨by trivial, ?_, ?_, ?_, ?_, ?_, ?_, ?_, ?_⟩
      · rw [encodeThreeBytes_eval, if_neg (by omega), if_neg (by omega),
          if_neg (by omega), if_neg (by omega), hB1]
      · rw [encodeThreeBytes_eval, if_neg (by omega), if_neg (by omega),
          if_neg (by omega), if_neg (by omega), hB2]
      · rw [encodeThreeBytes_eval, if_neg (by omega), if_neg (by omega),
          if_neg (by omega), if_neg (by omega), hB3]
      · rw [encodeThreeBytes_eval, if_neg (by omega), if_neg (by omega),
          if_neg (by omega), if_neg (by omega), hB4]
      · intro q hq
        rw [encodeThreeBytes_eval, if_neg (by omega), if_neg (by omega),
          if_neg (by omega), if_neg (by omega), hB5 q hq]
      · intro i q h1 h2 hq
        rw [encodeThreeBytes_eval, if_neg (by omega), if_neg (by omega),
          if_neg (by omega), if_neg (by omega), hBff i q h1 h2 hq]
      · intro g hg
        by_cases hg0 : g = 0
        · subst hg0
          refine ⟨?_, ?_, ?_, ?_⟩
          · rw [encodeThreeBytes_eval, if_neg (by omega), if_neg (by omega),
              if_neg (by omega), if_pos (by omega)]
            simp [padGet]
          · rw [encodeThreeBytes_eval, if_neg (by omega), if_neg (by omega),
              if_pos (by omega)]
            simp [padGet]
          · rw [encodeThreeBytes_eval, if_neg (by omega), if_pos (by omega)]
            simp [padGet]
          · rw [encodeThreeBytes_eval, if_pos (by omega)]
            simp [padGet]
        · refine ⟨?_, ?_, ?_, ?_⟩ <;>
            · rw [encodeThreeBytes_eval, if_neg (by omega), if_neg (by omega),
                if_neg (by omega), if_neg (by omega), hBz _ (by omega)]
              repeat rw [padGet_of_le data _ (by omega)]
      · intro g jp q hg1 hg2 hjp hq
        rw [encodeThreeBytes_eval, if_neg (by omega), if_neg (by omega),
          if_neg (by omega), if_neg (by omega), hBz _ (by omega),
          padGet_of_le data _ (by omega)]
    · rw [if_neg (by omega), show data.length ⊓ (120 + 3) = 123 by omega]
      have hzB2 : ∀ idx, 128 * 1 ≤ idx →
          encodeThreeBytes 0
            [padGet data 120, padGet data (120 + 1), padGet data (120 + 2)]
            B idx = 0 := by
        intro idx hidx
        rw [encodeThreeBytes_eval, if_neg (by omega), if_neg (by omega),
          if_neg (by omega), if_neg (by omega), hBz _ (by omega)]
      obtain ⟨eg1, eg2, eg3, eg4⟩ := encodeGroups_spec data hlen 1023 1 _ 123
        (by omega) (by omega) (by omega) (by omega) hzB2
      rw [eg1, if_neg (by omega)]
      simp only [Prod.fst, Prod.snd]
      refine ⟨by trivial, ?_, ?_, ?_, ?_, ?_, ?_, ?_, ?_⟩
      · rw [eg2 1 (by omega), encodeThreeBytes_eval, if_neg (by omega),
          if_neg (by omega), if_neg (by omega), if_neg (by omega), hB1]
      · rw [eg2 2 (by omega), encodeThreeBytes_eval, if_neg (by omega),
          if_neg (by omega), if_neg (by omega), if_neg (by omega), hB2]
      · rw [eg2 3 (by omega), encodeThreeBytes_eval, if_neg (by omega),
          if_neg (by omega), if_neg (by omega), if_neg (by omega), hB3]
      · rw [eg2 4 (by omega), encodeThreeBytes_eval, if_neg (by omega),
          if_neg (by omega), if_neg (by omega), if_neg (by omega), hB4]
      · intro q hq
        rw [eg2 (5 + q) (by omega), encodeThreeBytes_eval, if_neg (by omega),
          if_neg (by omega), if_neg (by omega), if_neg (by omega), hB5 q hq]
      · intro i q h1 h2 hq
        rw [eg2 _ (by omega), encodeThreeBytes_eval, if_neg (by omega),
          if_neg (by omega), if_neg (by omega), if_neg (by omega),
          hBff i q h1 h2 hq]
      · intro g hg
        by_cases hg0 : g = 0
        · subst hg0
          refine ⟨?_, ?_, ?_, ?_⟩
          · rw [eg2 _ (by omega), encodeThreeBytes_eval, if_neg (by omega),
              if_neg (by omega), if_neg (by omega), if_pos (by omega)]
            simp [padGet]
          · rw [eg2 _ (by omega), encodeThreeBytes_eval, if_neg (by omega),
              if_neg (by omega), if_pos (by omega)]
            simp [padGet]
          · rw [eg2 _ (by omega), encodeThreeBytes_eval, if_neg (by omega),
              if_pos (by omega)]
            simp [padGet]
          · rw [eg2 _ (by omega), encodeThreeBytes_eval, if_pos (by omega)]
            simp [padGet]
        · exact eg4 g (by omega) hg
      · intro g jp q hg1 hg2 hjp hq
        exact eg3 g jp q (by omega) hg2 hjp hq

/-! ## Decoder characterisation -/

theorem copyOut_untouched (buf : Buf) (dst : Nat) (b : Blob) (src n j : Nat)
    (h : j < dst ∨ dst + n ≤ j) : copyOut buf dst b src n j = buf j := by
  induction n generalizing buf dst src with
  | zero => rfl
  | succ m ih =>
    simp only [copyOut]
    rw [ih _ _ _ (by omega), setByte_other _ _ _ _ (by omega)]

theorem copyOut_written (buf : Buf) (dst : Nat) (b : Blob) (src n p : Nat)
    (hp : p < n) : copyOut buf dst b src n (dst + p) = b (src + p) := by
  induction n generalizing buf dst src p with
  | zero => omega
  | succ m ih =>
    simp only [copyOut]
    match p with
    | 0 =>
      rw [copyOut_untouched _ _ _ _ _ _ (by omega)]
      simp [setByte]
    | q + 1 =>
      rw [show dst + (q + 1) = dst + 1 + q by omega, ih _ _ _ q (by omega),
        show src + 1 + q = src + (q + 1) by omega]

theorem writeBytes_untouched (buf : Buf) (dst : Nat) (vs : List Nat) (j : Nat)
    (h : j < dst ∨ dst + vs.length ≤ j) : writeBytes buf dst vs j = buf j := by
  induction vs generalizing buf dst with
  | nil => rfl
  | cons v vs ih =>
    simp only [writeBytes]
    rw [ih _ _ (by simp at h; omega), setByte_other _ _ _ _ (by simp at h; omega)]

theorem writeBytes_written (buf : Buf) (dst : Nat) (vs : List Nat) (p : Nat)
    (hp : p < vs.length) : writeBytes buf dst vs (dst + p) = vs.getD p 0 := by
  induction vs generalizing buf dst p with
  | nil => simp at hp
  | cons v vs ih =>
    simp only [writeBytes]
    match p with
    | 0 =>
      rw [writeBytes_untouched _ _ _ _ (by omega)]
      simp [setByte]
    | q + 1 =>
      rw [show dst + (q + 1) = dst + 1 + q by omega, ih _ _ q (by simp at hp; omega)]
      simp

/-- Output bytes of the first-field region `[27, 120)` of the decoder:
position `t` receives `b[i*32 + 1 + (t-27)%31]` with `i = 1 + (t-27)/31`. -/
def ffRegion (b : Blob) (t : Nat) : Nat :=
  b (32 * (1 + (t - 27) / 31) + 1 + (t - 27) % 31)

/-- Output bytes of the main-loop region `[123, 130044)` of the decoder:
with `g = (t+4)/127` and `s = (t+4)%127`, position `t` receives a tail byte
of element `s/31` of group `g` when `s < 124` and a reconstructed spill byte
otherwise. -/
def grpRegion (b : Blob) (t : Nat) : Nat :=
  if (t + 4) % 127 < 124 then
    b (128 * ((t + 4) / 127) + 32 * ((t + 4) % 127 / 31) + 1 + (t + 4) % 127 % 31)
  else (decodeSpill b ((t + 4) / 127)).getD ((t + 4) % 127 - 124) 0

/-- The full output buffer of a successful decode, position by position. -/
def decByte (b : Blob) (t : Nat) : Nat :=
  if t < 27 then b (5 + t)
  else if t < 120 then ffRegion b t
  else if t < 123 then (decodeSpill b 0).getD (t - 120) 0
  else if t < 130044 then grpRegion b t
  else 0

/-- Success behaviour of the decoder's first-field loop when the leading
bytes of the remaining elements of group 0 all have their top bit clear:
output positions `[27 + 31*(i-1), 120)` receive the tail bytes. -/
theorem decodeFirstFieldElems_ok (b : Blob) :
    ∀ n i buf, i + n = 4 → 1 ≤ i →
      (∀ k, i ≤ k → k < 4 → b (k * 32) / 128 % 2 = 0) →
      decodeFirstFieldElems buf b i =
        .ok (fun t => if 27 + 31 * (i - 1) ≤ t ∧ t < 120
          then ffRegion b t else buf t) := by
  intro n
  induction n with
  | zero =>
    intro i buf hi h1i _hclear
    have hi4 : i = 4 := by omega
    subst hi4
    rw [decodeFirstFieldElems, dif_neg (by omega)]
    congr 1
    funext t
    rw [if_neg (by omega)]
  | succ m ih =>
    intro i buf hi h1i hclear
    rw [decodeFirstFieldElems, dif_pos (by omega : i < 4)]
    have hc : ¬ (highBitSet (b (i * 32)) = true) := by
      have := hclear i (le_refl i) (by omega)
      simp only [highBitSet, decide_eq_true_eq]
      omega
    rw [if_neg hc,
      ih (i + 1) _ (by omega) (by omega) (fun k h1 h2 => hclear k (by omega) h2)]
    congr 1
    funext t
    by_cases ht1 : 27 + 31 * (i + 1 - 1) ≤ t ∧ t < 120
    · rw [if_pos ht1, if_pos (by omega)]
    · rw [if_neg ht1]
      by_cases ht2 : 27 + 31 * (i - 1) ≤ t ∧ t < 120
      · rw [if_pos ht2,
          show t = 27 + 31 * (i - 1) + (t - (27 + 31 * (i - 1))) by omega,
          copyOut_written _ _ _ _ 31 _ (by omega)]
        simp only [ffRegion]
        congr 1
        omega
      · rw [if_neg ht2, copyOut_untouched _ _ _ _ _ _ (by omega)]

/-- Success behaviour of the inner element loop of the decoder's main loop
on group `i` when the remaining leading bytes are clear: output positions
`[127*i - 4 + 31*j, 127*i + 120)` receive the tail bytes. -/
theorem decodeGroupElems_ok (b : Blob) (i : Nat) (h1i : 1 ≤ i) (hi : i < 1024) :
    ∀ n j buf, j + n = 4 →
      (∀ jp, j ≤ jp → jp < 4 → b (i * FieldSize + jp * 32) / 128 % 2 = 0) →
      decodeGroupElems buf b i j =
        .ok (fun t => if 127 * i - 4 + 31 * j ≤ t ∧ t < 127 * i + 120
          then grpRegion b t else buf t) := by
  intro n
  induction n with
  | zero =>
    intro j buf hj _hclear
    have hj4 : j = 4 := by omega
    subst hj4
    rw [decodeGroupElems, dif_neg (by omega)]
    congr 1
    funext t
    rw [if_neg (by omega)]
  | succ m ih =>
    intro j buf hj hclear
    rw [decodeGroupElems, dif_pos (by omega : j < 4)]
    have hc : ¬ (highBitSet (b (i * FieldSize + j * 32)) = true) := by
      have := hclear j (le_refl j) (by omega)
      simp only [highBitSet, decide_eq_true_eq]
      omega
    rw [if_neg hc,
      ih (j + 1) _ (by omega) (fun k h1 h2 => hclear k (by omega) h2)]
    congr 1
    funext t
    by_cases ht1 : 127 * i - 4 + 31 * (j + 1) ≤ t ∧ t < 127 * i + 120
    · rw [if_pos ht1, if_pos (by omega)]
    · rw [if_neg ht1]
      by_cases ht2 : 127 * i - 4 + 31 * j ≤ t ∧ t < 127 * i + 120
      · have hdst : FieldCapacity * i + j * 31 - 4 = 127 * i - 4 + 31 * j := by
          simp only [FieldCapacity]
          omega
        rw [if_pos ht2, hdst,
          show t = 127 * i - 4 + 31 * j + (t - (127 * i - 4 + 31 * j)) by omega,
          copyOut_written _ _ _ _ 31 _ (by omega)]
        simp only [grpRegion, FieldSize]
        rw [if_pos (by omega)]
        congr 1
        omega
      · rw [if_neg ht2, copyOut_untouched _ _ _ _ _ _ ?hu]
        case hu =>
          have hdst : FieldCapacity * i + j * 31 - 4 = 127 * i - 4 + 31 * j := by
            simp only [FieldCapacity]
            omega
          omega

/-- Success behaviour of the decoder's main loop from group `i` on, when
every remaining leading byte is clear: output positions
`[127*i - 4, 130044)` receive the decoded payload bytes. -/
theorem decodeGroups_ok (b : Blob) :
    ∀ n i buf, i + n = 1024 → 1 ≤ i →
      (∀ g jp, i ≤ g → g < 1024 → jp < 4 →
        b (g * FieldSize + jp * 32) / 128 % 2 = 0) →
      decodeGroups buf b i =
        .ok (fun t => if 127 * i - 4 ≤ t ∧ t < 130044
          then grpRegion b t else buf t) := by
  intro n
  induction n with
  | zero =>
    intro i buf hi h1i _hclear
    have hi4 : i = 1024 := by omega
    subst hi4
    rw [decodeGroups, dif_neg (by omega)]
    congr 1
    funext t
    rw [if_neg (by omega)]
  | succ m ih =>
    intro i buf hi h1i hclear
    rw [decodeGroups, dif_pos (by omega : i < 1024)]
    rw [decodeGroupElems_ok b i h1i (by omega) 4 0 buf (by omega)
      (fun jp _ h2 => hclear i jp (le_refl i) (by omega) h2)]
    simp only []
    rw [ih (i + 1) _ (by omega) (by omega)
      (fun g jp h1 h2 h3 => hclear g jp (by omega) h2 h3)]
    congr 1
    funext t
    have hdst : 120 + FieldCapacity * i = 127 * i + 120 := by
      simp only [FieldCapacity]
      omega
    by_cases ht1 : 127 * (i + 1) - 4 ≤ t ∧ t < 130044
    · rw [if_pos ht1, if_pos (by omega)]
    · rw [if_neg ht1]
      by_cases ht2 : 127 * i - 4 ≤ t ∧ t < 130044
      · rw [if_pos ht2]
        by_cases ht3 : t < 127 * i + 120
        · rw [writeBytes_untouched _ _ _ _ (by rw [hdst]; omega),
            if_pos (by omega)]
        · rw [hdst, show t = 127 * i + 120 + (t - (127 * i + 120)) by omega,
            writeBytes_written _ _ _ _ (by simp [decodeSpill]; omega)]
          simp only [grpRegion]
          rw [if_neg (by omega), show (127 * i + 120 + (t - (127 * i + 120)) + 4) / 127 = i by omega,
            show (127 * i + 120 + (t - (127 * i + 120)) + 4) % 127 - 124 = t - (127 * i + 120) by omega]
      · rw [if_neg ht2, writeBytes_untouched _ _ _ _
          (by simp only [decodeSpill]; rw [hdst]; simp; omega),
          if_neg (by omega)]

/-- Master decoder success theorem: on a blob with the correct version byte,
an in-range length prefix, and every checked leading byte's top bit clear
(elements 1-3 of group 0 and all elements of groups 1-1023 — element 0 is
never checked), `ToData` succeeds and returns the first `dataLen` bytes of
the decoded buffer `decByte`. -/
theorem toData_ok (b : Blob)
    (hv : b 1 = EncodingVersion) (hl : dataLenOf b ≤ BlobSize)
    (hff : ∀ k, 1 ≤ k → k < 4 → b (k * 32) / 128 % 2 = 0)
    (hgrp : ∀ g jp, 1 ≤ g → g < 1024 → jp < 4 →
      b (g * FieldSize + jp * 32) / 128 % 2 = 0) :
    toData b = .ok ((List.range (dataLenOf b)).map (decByte b)) := by
  have h1 : ¬ (b 1 ≠ EncodingVersion) := by simp [hv]
  simp only [toData, if_neg h1, if_neg (show ¬ dataLenOf b > BlobSize by omega)]
  rw [decodeFirstFieldElems_ok b 3 1 _ (by omega) (by omega) hff]
  simp only []
  rw [decodeGroups_ok b 1023 1 _ (by omega) (by omega) hgrp]
  simp only []
  congr 1
  apply List.map_congr_left
  intro t ht
  rw [List.mem_range] at ht
  by_cases c1 : t < 27
  · rw [decByte, if_pos c1, if_neg (by omega),
      writeBytes_untouched _ _ _ _ (by simp only [decodeSpill]; simp; omega),
      if_neg (by omega), show t = 0 + t by omega, copyOut_written _ _ _ _ 27 _ (by omega)]
    simp
  · by_cases c2 : t < 120
    · rw [decByte, if_neg c1, if_pos c2, if_neg (by omega),
        writeBytes_untouched _ _ _ _ (by simp only [decodeSpill]; simp; omega),
        if_pos (by omega)]
    · by_cases c3 : t < 123
      · rw [decByte, if_neg c1, if_neg c2, if_pos c3, if_neg (by omega),
          show t = 27 + 31 * 3 + (t - 120) by omega,
          writeBytes_written _ _ _ _ (by simp only [decodeSpill]; simp; omega)]
        rw [show 27 + 31 * 3 + (t - 120) - 120 = t - 120 by omega]
      · by_cases c4 : t < 130044
        · rw [decByte, if_neg c1, if_neg c2, if_neg c3, if_pos c4,
            if_pos (by omega)]
        · rw [decByte, if_neg c1, if_neg c2, if_neg c3, if_neg c4,
            if_neg (by omega),
            writeBytes_untouched _ _ _ _ (by simp only [decodeSpill]; simp; omega),
            if_neg (by omega), copyOut_untouched _ _ _ _ _ _ (by omega)]

/-! ## Round-trip composition -/

theorem padGet_lt (d : List Nat) (hb : ∀ x ∈ d, x < 256) (i : Nat) :
    padGet d i < 256 := by
  by_cases h : i < d.length
  · rw [padGet, List.getD_eq_getElem _ _ h]
    exact hb _ (List.getElem_mem h)
  · rw [padGet_of_le d i (by omega)]
    omega

/-- On an encoded blob, the spill-byte reconstruction of the decoder
recovers the three payload bytes that `encodeThreeBytes` had distributed. -/
theorem decodeSpill_encoded (d : List Nat) (B : Blob) (hE : EncodedAt d B)
    (hb : ∀ x ∈ d, x < 256) (g : Nat) (hg : g < 1024) :
    decodeSpill B g =
      [padGet d (127 * g + 120), padGet d (127 * g + 121),
        padGet d (127 * g + 122)] := by
  obtain ⟨-, -, -, -, -, -, hsp, -⟩ := hE
  obtain ⟨h0, h32, h64, h96⟩ := hsp g hg
  simp only [decodeSpill, FieldSize]
  rw [show g * (4 * 32) = 128 * g by omega]
  rw [h0, h32, h64, h96]
  have b0 := padGet_lt d hb (127 * g + 120)
  have b1 := padGet_lt d hb (127 * g + 121)
  have b2 := padGet_lt d hb (127 * g + 122)
  simp only [List.cons.injEq, and_true]
  refine ⟨by omega, by omega, by omega⟩

/-- On an encoded blob, every decoded output byte below 130044 is the
corresponding payload byte (or `0` past the payload end). -/
theorem decByte_encoded (d : List Nat) (B : Blob) (hE : EncodedAt d B)
    (hb : ∀ x ∈ d, x < 256) (t : Nat) (ht : t < 130044) :
    decByte B t = padGet d t := by
  obtain ⟨h1, h2, h3, h4, h5, h6, h7, h8⟩ := hE
  rw [decByte]
  by_cases c1 : t < 27
  · rw [if_pos c1, h5 t c1]
  · rw [if_neg c1]
    by_cases c2 : t < 120
    · rw [if_pos c2, ffRegion,
        h6 (1 + (t - 27) / 31) ((t - 27) % 31) (by omega) (by omega) (by omega)]
      congr 1
      omega
    · rw [if_neg c2]
      by_cases c3 : t < 123
      · rw [if_pos c3,
          decodeSpill_encoded d B ⟨h1, h2, h3, h4, h5, h6, h7, h8⟩ hb 0 (by omega)]
        have : t - 120 = 0 ∨ t - 120 = 1 ∨ t - 120 = 2 := by omega
        rcases this with h | h | h <;>
          · rw [h]
            exact congrArg (padGet d) (by omega)
      · rw [if_neg c3, if_pos (by omega), grpRegion]
        by_cases c5 : (t + 4) % 127 < 124
        · rw [if_pos c5,
            h8 ((t + 4) / 127) ((t + 4) % 127 / 31) ((t + 4) % 127 % 31)
              (by omega) (by omega) (by omega) (by omega)]
          congr 1
          omega
        · rw [if_neg c5,
            decodeSpill_encoded d B ⟨h1, h2, h3, h4, h5, h6, h7, h8⟩ hb
              ((t + 4) / 127) (by omega)]
          have : (t + 4) % 127 - 124 = 0 ∨ (t + 4) % 127 - 124 = 1 ∨
              (t + 4) % 127 - 124 = 2 := by omega
          rcases this with h | h | h <;>
            · rw [h]
              exact congrArg (padGet d) (by omega)

theorem range_map_padGet (d : List Nat) :
    (List.range d.length).map (padGet d) = d := by
  apply List.ext_getElem
  · simp
  · intro i h1 h2
    simp only [List.getElem_map, List.getElem_range, padGet]
    rw [List.getD_eq_getElem _ _ h2]

/-- The length prefix written by the encoder decodes back to the payload
length. -/
theorem dataLenOf_encoded (d : List Nat) (B : Blob) (hE : EncodedAt d B)
    (hlen : d.length ≤ MaxBlobDataSize) : dataLenOf B = d.length := by
  obtain ⟨-, h2, h3, h4, -⟩ := hE
  rw [dataLenOf, h2, h3, h4]
  have hM : MaxBlobDataSize = 130044 := by norm_num [MaxBlobDataSize]
  omega

/-- On an encoded blob the leading bytes of elements 1-3 of group 0 have
their top bit clear. -/
theorem encoded_ff_clear (d : List Nat) (B : Blob) (hE : EncodedAt d B) :
    ∀ k, 1 ≤ k → k < 4 → B (k * 32) / 128 % 2 = 0 := by
  obtain ⟨-, -, -, -, -, -, hsp, -⟩ := hE
  obtain ⟨h0, h32, h64, h96⟩ := hsp 0 (by omega)
  intro k hk1 hk4
  interval_cases k
  · rw [show (1 * 32 : Nat) = 128 * 0 + 32 by norm_num, h32]
    omega
  · rw [show (2 * 32 : Nat) = 128 * 0 + 64 by norm_num, h64]
    omega
  · rw [show (3 * 32 : Nat) = 128 * 0 + 96 by norm_num, h96]
    omega

/-- On an encoded blob the leading bytes of every element of groups
1-1023 have their top bit clear. -/
theorem encoded_grp_clear (d : List Nat) (B : Blob) (hE : EncodedAt d B) :
    ∀ g jp, 1 ≤ g → g < 1024 → jp < 4 →
      B (g * FieldSize + jp * 32) / 128 % 2 = 0 := by
  obtain ⟨-, -, -, -, -, -, hsp, -⟩ := hE
  intro g jp hg1 hg hjp
  obtain ⟨h0, h32, h64, h96⟩ := hsp g hg
  simp only [FieldSize]
  interval_cases jp
  · rw [show g * (4 * 32) + 0 * 32 = 128 * g by omega, h0]
    omega
  · rw [show g * (4 * 32) + 1 * 32 = 128 * g + 32 by omega, h32]
    omega
  · rw [show g * (4 * 32) + 2 * 32 = 128 * g + 64 by omega, h64]
    omega
  · rw [show g * (4 * 32) + 3 * 32 = 128 * g + 96 by omega, h96]
    omega

/-- Full round-trip: encoding any byte payload within the size bound
succeeds, and decoding the encoded blob returns the payload exactly. -/
theorem roundtrip (b0 : Blob) (d : List Nat)
    (hlen : d.length ≤ MaxBlobDataSize) (hbytes : ∀ x ∈ d, x < 256) :
    (fromData b0 d).2 = none ∧ toData (fromData b0 d).1 = .ok d := by
  obtain ⟨hnone, hE⟩ := fromData_spec b0 d hlen
  refine ⟨hnone, ?_⟩
  have hdl : dataLenOf (fromData b0 d).1 = d.length := dataLenOf_encoded d _ hE hlen
  have hM : MaxBlobDataSize = 130044 := by norm_num [MaxBlobDataSize]
  have hBS : BlobSize = 131072 := by norm_num [BlobSize]
  rw [toData_ok _ (by rw [hE.1]; rfl) (by omega)
    (encoded_ff_clear d _ hE) (encoded_grp_clear d _ hE), hdl]
  congr 1
  have hmap : (List.range d.length).map (decByte (fromData b0 d).1) =
      (List.range d.length).map (padGet d) := by
    apply List.map_congr_left
    intro t ht
    rw [List.mem_range] at ht
    exact decByte_encoded d _ hE hbytes t (by omega)
  rw [hmap, range_map_padGet]

/-! ## Decoder error paths -/

/-- The first-field loop fails on the first element whose leading byte has
its top bit set, reporting that element's index. -/
theorem decodeFirstFieldElems_err (b : Blob) (k : Nat) (hk4 : k < 4) :
    ∀ n i buf, i + n = 4 → 1 ≤ i → i ≤ k →
      b (k * 32) / 128 % 2 = 1 →
      (∀ kp, i ≤ kp → kp < k → b (kp * 32) / 128 % 2 = 0) →
      decodeFirstFieldElems buf b i = .error (.fieldElementHighBit k) := by
  intro n
  induction n with
  | zero =>
    intro i buf hi h1i hik _ _
    omega
  | succ m ih =>
    intro i buf hi h1i hik hbad hmin
    rw [decodeFirstFieldElems, dif_pos (by omega : i < 4)]
    rcases Nat.eq_or_lt_of_le hik with hik2 | hik2
    · subst hik2
      rw [if_pos (by simp only [highBitSet, decide_eq_true_eq]; omega)]
    · rw [if_neg (by
        have := hmin i (le_refl i) (by omega)
        simp only [highBitSet, decide_eq_true_eq]
        omega)]
      exact ih (i + 1) _ (by omega) (by omega) (by omega) hbad
        (fun kp h1 h2 => hmin kp (by omega) h2)

/-- The inner element loop of the decoder's main loop fails on the first
element of group `i` whose leading byte has its top bit set, reporting the
group counter `i`. -/
theorem decodeGroupElems_err (b : Blob) (i j0 : Nat) (hj0 : j0 < 4) :
    ∀ n j buf, j + n = 4 → j ≤ j0 →
      b (i * FieldSize + j0 * 32) / 128 % 2 = 1 →
      (∀ jp, j ≤ jp → jp < j0 → b (i * FieldSize + jp * 32) / 128 % 2 = 0) →
      decodeGroupElems buf b i j = .error (.fieldElementHighBit i) := by
  intro n
  induction n with
  | zero =>
    intro j buf hj hjj0 _ _
    omega
  | succ m ih =>
    intro j buf hj hjj0 hbad hmin
    rw [decodeGroupElems, dif_pos (by omega : j < 4)]
    rcases Nat.eq_or_lt_of_le hjj0 with hjj | hjj
    · subst hjj
      rw [if_pos (by simp only [highBitSet, decide_eq_true_eq]; omega)]
    · rw [if_neg (by
        have := hmin j (le_refl j) (by omega)
        simp only [highBitSet, decide_eq_true_eq]
        omega)]
      exact ih (j + 1) _ (by omega) (by omega) hbad
        (fun jp h1 h2 => hmin jp (by omega) h2)

/-- The decoder's main loop fails on the first group containing an element
whose leading byte has its top bit set, reporting that group's index. -/
theorem decodeGroups_err (b : Blob) (g0 j0 : Nat) (hg0 : g0 < 1024)
    (hj0 : j0 < 4) :
    ∀ n i buf, i + n = 1024 → 1 ≤ i → i ≤ g0 →
      b (g0 * FieldSize + j0 * 32) / 128 % 2 = 1 →
      (∀ jp, jp < j0 → b (g0 * FieldSize + jp * 32) / 128 % 2 = 0) →
      (∀ g jp, i ≤ g → g < g0 → jp < 4 → b (g * FieldSize + jp * 32) / 128 % 2 = 0) →
      decodeGroups buf b i = .error (.fieldElementHighBit g0) := by
  intro n
  induction n with
  | zero =>
    intro i buf hi h1i hig _ _ _
    omega
  | succ m ih =>
    intro i buf hi h1i hig hbad hminj hming
    rw [decodeGroups, dif_pos (by omega : i < 1024)]
    rcases Nat.eq_or_lt_of_le hig with hig2 | hig2
    · subst hig2
      rw [decodeGroupElems_err b i j0 hj0 4 0 buf (by omega) (by omega) hbad
        (fun jp _ h2 => hminj jp h2)]
    · rw [decodeGroupElems_ok b i h1i (by omega) 4 0 buf (by omega)
        (fun jp _ h2 => hming i jp (le_refl i) (by omega) h2)]
      simp only []
      exact ih (i + 1) _ (by omega) (by omega) (by omega) hbad hminj
        (fun g jp h1 h2 h3 => hming g jp (by omega) h2 h3)

/-- With a correct version byte, an out-of-range length prefix (the code
compares against `BlobSize`, the full output buffer size) fails decoding
with `lengthPrefixOutOfRange` carrying the prefix value. -/
theorem toData_err_len (b : Blob) (hv : b 1 = EncodingVersion)
    (hl : BlobSize < dataLenOf b) :
    toData b = .error (.lengthPrefixOutOfRange (dataLenOf b)) := by
  have h1 : ¬ (b 1 ≠ EncodingVersion) := by simp [hv]
  rw [toData, if_neg h1, if_pos (by omega)]

/-- With version and length prefix accepted, decoding fails on the first
element (in scan order: elements 1-3 of group 0, then groups 1-1023 in
element order) whose leading byte has its top bit set; the reported index is
the element index `k` for `k < 4` and the group index `k / 4` for `k ≥ 4`.
Element 0 is never scanned. -/
theorem toData_err_highBit (b : Blob) (k : Nat)
    (hv : b 1 = EncodingVersion) (hl : dataLenOf b ≤ BlobSize)
    (hk1 : 1 ≤ k) (hk : k < 4096)
    (hbad : b (32 * k) / 128 % 2 = 1)
    (hmin : ∀ kp, 1 ≤ kp → kp < k → b (32 * kp) / 128 % 2 = 0) :
    toData b = .error (.fieldElementHighBit (if k < 4 then k else k / 4)) := by
  have h1 : ¬ (b 1 ≠ EncodingVersion) := by simp [hv]
  rw [toData, if_neg h1, if_neg (by omega)]
  simp only []
  by_cases hk4 : k < 4
  · rw [decodeFirstFieldElems_err b k hk4 3 1 _ (by omega) (by omega) (by omega)
      (by rw [show k * 32 = 32 * k by omega]; exact hbad)
      (fun kp h1p h2p => by
        rw [show kp * 32 = 32 * kp by omega]
        exact hmin kp h1p h2p)]
    simp only []
    rw [if_pos hk4]
  · rw [decodeFirstFieldElems_ok b 3 1 _ (by omega) (by omega)
      (fun kp h1p h2p => by
        rw [show kp * 32 = 32 * kp by omega]
        exact hmin kp h1p (by omega))]
    simp only []
    rw [decodeGroups_err b (k / 4) (k % 4) (by omega) (by omega) 1023 1 _
      (by omega) (by omega) (by omega)
      (by rw [show k / 4 * FieldSize + k % 4 * 32 = 32 * k by simp only [FieldSize]; omega]
          exact hbad)
      (fun jp hjp => by
        rw [show k / 4 * FieldSize + jp * 32 = 32 * (k / 4 * 4 + jp) by
          simp only [FieldSize]; omega]
        exact hmin _ (by omega) (by omega))
      (fun g jp h1p h2p h3p => by
        rw [show g * FieldSize + jp * 32 = 32 * (g * 4 + jp) by
          simp only [FieldSize]; omega]
        exact hmin _ (by omega) (by omega))]
    simp only []
    rw [if_neg hk4]

/-- A successful decode returns exactly `dataLen` bytes, and the accepted
`dataLen` never exceeds `BlobSize` (but may exceed `MaxBlobDataSize`). -/
theorem toData_length_inv (b : Blob) (out : List Nat)
    (h : toData b = .ok out) :
    out.length = dataLenOf b ∧ dataLenOf b ≤ BlobSize := by
  rw [toData] at h
  by_cases h1 : b 1 ≠ EncodingVersion
  · rw [if_pos h1] at h
    exact absurd h (by simp)
  · rw [if_neg h1] at h
    by_cases h2 : dataLenOf b > BlobSize
    · rw [if_pos h2] at h
      exact absurd h (by simp)
    · rw [if_neg h2] at h
      simp only [] at h
      rcases hdec : decodeFirstFieldElems (copyOut (fun _ => 0) 0 b 5 27) b 1
        with e | buf2
      · rw [hdec] at h
        exact absurd h (by simp)
      · rw [hdec] at h
        simp only [] at h
        rcases hgrp : decodeGroups
            (writeBytes buf2 (27 + 31 * 3) (decodeSpill b 0)) b 1 with e | buf4
        · rw [hgrp] at h
          exact absurd h (by simp)
        · rw [hgrp] at h
          simp only [Except.ok.injEq] at h
          constructor
          · rw [← h]
            simp
          · omega

/-- Decoding an all-zero blob succeeds with empty output. -/
theorem toData_zero (b : Blob) : toData (clearBlob b) = .ok [] := by
  have hdl : dataLenOf (clearBlob b) = 0 := by norm_num [dataLenOf, clearBlob]
  rw [toData_ok (clearBlob b) rfl (by rw [hdl]; omega)
    (fun k _ _ => by norm_num [clearBlob])
    (fun g jp _ _ _ => by norm_num [clearBlob]), hdl]
  simp

/-! ## Codec claims -/

/-- C1 (Round-trip): for every byte sequence `d` with
`0 ≤ len(d) ≤ MAX_BLOB_DATA_SIZE = 130044`, encoding `d` with
`Blob.FromData` succeeds, and decoding the resulting blob with
`Blob.ToData` succeeds and returns exactly `d`, byte for byte. -/
theorem C1_roundtrip (b0 : Blob) (d : List Nat)
    (hlen : d.length ≤ MaxBlobDataSize) (hbytes : ∀ x ∈ d, x < 256) :
    (fromData b0 d).2 = none ∧ toData (fromData b0 d).1 = .ok d :=
  roundtrip b0 d hlen hbytes

/-- Witness for C1 at the concrete payload `[1, 2, 3]`. -/
theorem C1_roundtrip_witness :
    ([1, 2, 3] : List Nat).length ≤ MaxBlobDataSize ∧
    (∀ x ∈ ([1, 2, 3] : List Nat), x < 256) ∧
    ((fromData (fun _ => 0) [1, 2, 3]).2 = none ∧
      toData (fromData (fun _ => 0) [1, 2, 3]).1 = .ok [1, 2, 3]) :=
  ⟨by decide, by decide,
    C1_roundtrip (fun _ => 0) [1, 2, 3] (by decide) (by decide)⟩

/-- C4 (Encoded-blob validity): after a successful `FromData`, every one of
the 4096 field elements' leading bytes `blob[32*k]` has its top two bits
clear (as a byte value, it is below 64, i.e. dividing by 64 gives 0). -/
theorem C4_validity (b0 : Blob) (d : List Nat)
    (hlen : d.length ≤ MaxBlobDataSize) :
    ∀ k, k < 4096 → (fromData b0 d).1 (32 * k) / 64 = 0 := by
  intro k hk
  obtain ⟨-, -, -, -, -, -, hsp, -⟩ := (fromData_spec b0 d hlen).2
  obtain ⟨h0, h32, h64, h96⟩ := hsp (k / 4) (by omega)
  have hj : k % 4 = 0 ∨ k % 4 = 1 ∨ k % 4 = 2 ∨ k % 4 = 3 := by omega
  rcases hj with h | h | h | h
  · rw [show 32 * k = 128 * (k / 4) by omega, h0]
    omega
  · rw [show 32 * k = 128 * (k / 4) + 32 by omega, h32]
    omega
  · rw [show 32 * k = 128 * (k / 4) + 64 by omega, h64]
    omega
  · rw [show 32 * k = 128 * (k / 4) + 96 by omega, h96]
    omega

/-- Witness for C4 at the payload `[255]`, element 0. -/
theorem C4_validity_witness :
    ([255] : List Nat).length ≤ MaxBlobDataSize ∧
    (fromData (fun _ => 0) [255]).1 (32 * 0) / 64 = 0 :=
  ⟨by decide, C4_validity (fun _ => 0) [255] (by decide) 0 (by decide)⟩

/-- C5 (Encoder raises-iff): `FromData` returns an error if and only if the
payload exceeds `MaxBlobDataSize`, in which case the error is
`DataTooLarge` carrying the length; within the bound encoding always
succeeds, so the defensive `Overflow` branch is unreachable. -/
theorem C5_error_iff (b0 : Blob) (d : List Nat) :
    ((fromData b0 d).2 = none ↔ d.length ≤ MaxBlobDataSize) ∧
    (MaxBlobDataSize < d.length →
      (fromData b0 d).2 = some (.dataTooLarge d.length)) := by
  constructor
  · constructor
    · intro hnone
      by_contra hgt
      rw [fromData, if_pos (by omega)] at hnone
      exact absurd hnone (by simp)
    · intro hle
      exact (fromData_spec b0 d hle).1
  · intro hgt
    rw [fromData, if_pos (by omega)]

/-- Witness for C5: a 130045-byte payload is rejected as `DataTooLarge`,
and the empty payload is accepted. -/
theorem C5_error_iff_witness :
    MaxBlobDataSize < (List.replicate 130045 (0 : Nat)).length ∧
    (fromData (fun _ => 0) (List.replicate 130045 (0 : Nat))).2 =
      some (.dataTooLarge (List.replicate 130045 (0 : Nat)).length) ∧
    (fromData (fun _ => 0) ([] : List Nat)).2 = none :=
  ⟨by rw [List.length_replicate]; decide,
    (C5_error_iff (fun _ => 0) _).2 (by rw [List.length_replicate]; decide),
    (C5_error_iff (fun _ => 0) []).1.2 (by decide)⟩

/-- C8 (Encoder atomicity on error): an oversized payload is rejected
before any write, so the returned receiver is exactly the input blob. -/
theorem C8_atomic_error (b0 : Blob) (d : List Nat)
    (h : MaxBlobDataSize < d.length) :
    fromData b0 d = (b0, some (.dataTooLarge d.length)) := by
  rw [fromData, if_pos (by omega)]

/-- Witness for C8 at a concrete oversized payload and a nonzero blob. -/
theorem C8_atomic_error_witness :
    MaxBlobDataSize < (List.replicate 130046 (1 : Nat)).length ∧
    fromData (fun _ => 7) (List.replicate 130046 (1 : Nat)) =
      ((fun _ => 7), some (.dataTooLarge (List.replicate 130046 (1 : Nat)).length)) :=
  ⟨by rw [List.length_replicate]; decide,
    C8_atomic_error (fun _ => 7) _ (by rw [List.length_replicate]; decide)⟩

/-- C9 (Zero-blob edge case): decoding a cleared (all-zero) blob succeeds
and returns the empty byte sequence. -/
theorem C9_zero_blob (b : Blob) : toData (clearBlob b) = .ok [] :=
  toData_zero b

/-- A blob that is zero everywhere except for a 24-bit length prefix of
`0x01FBFD = 130045 = MaxBlobDataSize + 1`. -/
def cexLenBlob : Blob := fun j =>
  if j = 2 then 1 else if j = 3 then 251 else if j = 4 then 253 else 0

theorem cexLenBlob_big (idx : Nat) (h : 5 ≤ idx) : cexLenBlob idx = 0 := by
  simp only [cexLenBlob]
  rw [if_neg (by omega), if_neg (by omega), if_neg (by omega)]

theorem cexLenBlob_decByte (t : Nat) : decByte cexLenBlob t = 0 := by
  rw [decByte]
  by_cases c1 : t < 27
  · rw [if_pos c1, cexLenBlob_big _ (by omega)]
  · rw [if_neg c1]
    by_cases c2 : t < 120
    · rw [if_pos c2, ffRegion, cexLenBlob_big _ (by omega)]
    · rw [if_neg c2]
      by_cases c3 : t < 123
      · rw [if_pos c3, show decodeSpill cexLenBlob 0 = [0, 0, 0] from rfl]
        have h : t - 120 = 0 ∨ t - 120 = 1 ∨ t - 120 = 2 := by omega
        rcases h with h | h | h <;> rw [h] <;> rfl
      · rw [if_neg c3]
        by_cases c4 : t < 130044
        · rw [if_pos c4, grpRegion]
          by_cases c5 : (t + 4) % 127 < 124
          · rw [if_pos c5, cexLenBlob_big _ (by omega)]
          · rw [if_neg c5]
            have hsp : decodeSpill cexLenBlob ((t + 4) / 127) = [0, 0, 0] := by
              simp only [decodeSpill, FieldSize]
              rw [cexLenBlob_big _ (by omega), cexLenBlob_big _ (by omega),
                cexLenBlob_big _ (by omega), cexLenBlob_big _ (by omega)]
            rw [hsp]
            have h : (t + 4) % 127 - 124 = 0 ∨ (t + 4) % 127 - 124 = 1 ∨
                (t + 4) % 127 - 124 = 2 := by omega
            rcases h with h | h | h <;> rw [h] <;> rfl
        · rw [if_neg c4]

/-- C2 counterexample: the claim "`ToData` fails with
`LengthPrefixOutOfRange` whenever `dataLen > MAX_BLOB_DATA_SIZE`" is false:
on the blob whose length prefix is `130045 > 130044` (and which is
otherwise zero) `ToData` succeeds and returns 130045 bytes. -/
theorem C2_length_check_counterexample :
    MaxBlobDataSize < dataLenOf cexLenBlob ∧
    toData cexLenBlob = .ok (List.replicate 130045 0) := by
  have hdl : dataLenOf cexLenBlob = 130045 := by norm_num [dataLenOf, cexLenBlob]
  refine ⟨by rw [hdl]; norm_num [MaxBlobDataSize], ?_⟩
  rw [toData_ok cexLenBlob rfl (by rw [hdl]; norm_num [BlobSize])
    (fun k h1 h2 => by rw [cexLenBlob_big _ (by omega)])
    (fun g jp h1 h2 h3 => by
      rw [cexLenBlob_big _ (by simp only [FieldSize]; omega)]), hdl]
  have hmap : (List.range 130045).map (decByte cexLenBlob) =
      List.replicate 130045 0 := by
    rw [List.map_congr_left (fun t _ => cexLenBlob_decByte t),
      List.map_const', List.length_range]
  rw [hmap]

/-- C2 as amended: the decoder's length-prefix bound is `BlobSize`
(131072), not `MaxBlobDataSize`: with a valid version byte, `ToData` fails
with `LengthPrefixOutOfRange` exactly when `dataLen > BLOB_SIZE`, and a
successful `ToData` returns exactly `dataLen ≤ BLOB_SIZE` bytes (which may
exceed `MAX_BLOB_DATA_SIZE`). -/
theorem C2_length_check_amended (b : Blob) :
    (b 1 = EncodingVersion → BlobSize < dataLenOf b →
      toData b = .error (.lengthPrefixOutOfRange (dataLenOf b))) ∧
    (∀ out, toData b = .ok out →
      out.length = dataLenOf b ∧ dataLenOf b ≤ BlobSize) :=
  ⟨fun hv hl => toData_err_len b hv hl, fun out h => toData_length_inv b out h⟩

/-- A blob that is zero everywhere except byte 2, giving length prefix
`0xFF0000 = 16711680 > BLOB_SIZE`. -/
def cexHugeLenBlob : Blob := fun j => if j = 2 then 255 else 0

/-- Witness for C2 as amended: a prefix of `16711680` is rejected, and the
all-zero blob decodes to `0 ≤ BlobSize` bytes. -/
theorem C2_length_check_amended_witness :
    (cexHugeLenBlob 1 = EncodingVersion ∧ BlobSize < dataLenOf cexHugeLenBlob ∧
      toData cexHugeLenBlob =
        .error (.lengthPrefixOutOfRange (dataLenOf cexHugeLenBlob))) ∧
    (([] : List Nat).length = dataLenOf (clearBlob fun _ => 0) ∧
      dataLenOf (clearBlob fun _ => 0) ≤ BlobSize) :=
  ⟨⟨rfl, by decide,
    (C2_length_check_amended cexHugeLenBlob).1 rfl (by decide)⟩,
    (C2_length_check_amended (clearBlob fun _ => 0)).2 [] (toData_zero _)⟩

/-- A blob that is zero everywhere except that field element 0's leading
byte `blob[0]` has its top bit set. -/
def cexElemZeroBlob : Blob := fun j => if j = 0 then 128 else 0

/-- C3 counterexample: the claim "for every `k ∈ [0, 4096)`, a set top bit
in `blob[32*k]` makes `ToData` fail (in particular element 0 is validated)"
is false at `k = 0`: the decoder never checks `blob[0]`, so this blob
decodes successfully (to the empty payload). -/
theorem C3_element_zero_counterexample :
    cexElemZeroBlob (32 * 0) / 128 % 2 = 1 ∧
    toData cexElemZeroBlob = .ok [] := by
  refine ⟨by decide, ?_⟩
  have hdl : dataLenOf cexElemZeroBlob = 0 := by norm_num [dataLenOf, cexElemZeroBlob]
  rw [toData_ok cexElemZeroBlob rfl (by rw [hdl]; norm_num [BlobSize])
    (fun k h1 h2 => by
      simp only [cexElemZeroBlob]
      rw [if_neg (by omega)])
    (fun g jp h1 h2 h3 => by
      simp only [cexElemZeroBlob]
      rw [if_neg (by simp only [FieldSize]; omega)]), hdl]
  simp

/-- C3 as amended: only elements `k ∈ [1, 4096)` are validated (element 0's
leading byte is ignored).  If `k` is the first element in the decoder's
scan order whose leading byte has its top bit set, and the version and
length-prefix checks pass, `ToData` fails with a `FieldElementHighBit`
error whose reported index is `k` itself for `k < 4` (the first-field loop)
and the group index `k / 4` for `k ≥ 4` (the main loop reports the group
counter, not the element index). -/
theorem C3_high_bit_amended (b : Blob) (k : Nat)
    (hv : b 1 = EncodingVersion) (hl : dataLenOf b ≤ BlobSize)
    (hk1 : 1 ≤ k) (hk : k < 4096)
    (hbad : b (32 * k) / 128 % 2 = 1)
    (hmin : ∀ kp, 1 ≤ kp → kp < k → b (32 * kp) / 128 % 2 = 0) :
    toData b = .error (.fieldElementHighBit (if k < 4 then k else k / 4)) :=
  toData_err_highBit b k hv hl hk1 hk hbad hmin

/-- A blob that is zero everywhere except that field element 1's leading
byte `blob[32]` has its top bit set. -/
def cexElemOneBlob : Blob := fun j => if j = 32 then 128 else 0

/-- Witness for C3 as amended at `k = 1`. -/
theorem C3_high_bit_amended_witness :
    cexElemOneBlob (32 * 1) / 128 % 2 = 1 ∧
    toData cexElemOneBlob =
      .error (.fieldElementHighBit (if 1 < 4 then 1 else 1 / 4)) :=
  ⟨by decide,
    C3_high_bit_amended cexElemOneBlob 1 rfl (by decide) (by decide) (by decide)
      (by decide) (fun kp h1 h2 => by omega)⟩

end BlobCodec

namespace Derive

/-! ## Blob data source adapter (`BlobDataFromEVMTransactions`) -/

/-- An L1 transaction, abstracted to exactly the fields
`BlobDataFromEVMTransactions` reads: `to?` models `tx.To()` (`none` for a
contract creation), `blobHashes` models `tx.BlobHashes()`, `callData`
models `tx.Data()` (only inspected for a warning log), and `sender?`
models the result of `l1Signer.Sender(tx)` (`none` = recovery error).
Addresses and hashes are opaque `Nat` identifiers. -/
structure Tx where
  to? : Option Nat
  sender? : Option Nat
  blobHashes : List Nat
  callData : List Nat

/-- `eth.IndexedDataHash`: identifies one blob within a block by its
global blob index and versioned data hash. -/
structure IndexedDataHash where
  index : Nat
  dataHash : Nat
deriving DecidableEq, Repr

/-- Modelled from the spec: `isValidBatchTx` is not among the given source
files.  Per the spec, a transaction is valid exactly when its sender,
recovered under the configured signer, equals the configured batcher
address; recovery is abstracted into the transaction's `sender?` field
(`none` meaning the signature did not recover). -/
def isValidBatchTx (tx : Tx) (batcherAddr : Nat) : Bool :=
  tx.sender? == some batcherAddr

/-- The inner `for _, h := range tx.BlobHashes()` loop: appends one
`IndexedDataHash` per hash, incrementing `blobIndex` after each. -/
def emitHashes (blobIndex : Nat) : List Nat → List IndexedDataHash
  | [] => []
  | h :: hs => ⟨blobIndex, h⟩ :: emitHashes (blobIndex + 1) hs

/-- The transaction loop of `BlobDataFromEVMTransactions`, with the running
`blobIndex` accumulator explicit.  A transaction to the inbox from an
invalid sender, or not addressed to the inbox, contributes no hashes but
still advances `blobIndex` by its blob-hash count. -/
def blobDataLoop (batchInboxAddress batcherAddr blobIndex : Nat) :
    List Tx → List IndexedDataHash
  | [] => []
  | tx :: txs =>
    if tx.to? = some batchInboxAddress then
      if ¬ isValidBatchTx tx batcherAddr then
        blobDataLoop batchInboxAddress batcherAddr
          (blobIndex + tx.blobHashes.length) txs
      else
        emitHashes blobIndex tx.blobHashes ++
          blobDataLoop batchInboxAddress batcherAddr
            (blobIndex + tx.blobHashes.length) txs
    else
      blobDataLoop batchInboxAddress batcherAddr
        (blobIndex + tx.blobHashes.length) txs

/-- `BlobDataFromEVMTransactions` from the derivation source: filters the
block's transactions and returns the indexed blob hashes of those sent to
the batch inbox by the batcher. -/
def BlobDataFromEVMTransactions (batchInboxAddress batcherAddr : Nat)
    (txs : List Tx) : List IndexedDataHash :=
  blobDataLoop batchInboxAddress batcherAddr 0 txs

/-- Number of blob hashes attached to a transaction. -/
def txBlobCount (tx : Tx) : Nat := tx.blobHashes.length

/-- Number of blob hashes attached to the first `i` transactions of the
block. -/
def prefixBlobCount (txs : List Tx) (i : Nat) : Nat :=
  ((txs.take i).map txBlobCount).sum

/-- Reference form of the claim: for each transaction (in order) whose
`to` is the batch-inbox address and whose recovered sender is the batcher
address, emit its blob hashes in order, each indexed by the number of blob
hashes attached to all earlier transactions plus its position within its
own transaction. -/
def specIndexedHashes (batchInboxAddress batcherAddr : Nat)
    (txs : List Tx) : List IndexedDataHash :=
  ((List.range txs.length).map (fun i =>
    let tx := txs.getD i ⟨none, none, [], []⟩
    if tx.to? = some batchInboxAddress ∧ tx.sender? = some batcherAddr then
      (List.range tx.blobHashes.length).map
        (fun j => ⟨prefixBlobCount txs i + j, tx.blobHashes.getD j 0⟩)
    else [])).flatten

theorem emitHashes_eq (hs : List Nat) :
    ∀ bi, emitHashes bi hs =
      (List.range hs.length).map (fun j => ⟨bi + j, hs.getD j 0⟩) := by
  induction hs with
  | nil => intro bi; rfl
  | cons h hs ih =>
    intro bi
    simp only [emitHashes, List.length_cons, List.range_succ_eq_map,
      List.map_cons, List.map_map, List.cons.injEq]
    constructor
    · simp
    · rw [ih (bi + 1)]
      apply List.map_congr_left
      intro j _
      simp only [Function.comp_apply, List.getD_cons_succ]
      congr 1
      omega

theorem blobDataLoop_eq (batchInboxAddress batcherAddr : Nat) :
    ∀ txs bi, blobDataLoop batchInboxAddress batcherAddr bi txs =
      (specIndexedHashes batchInboxAddress batcherAddr txs).map
        (fun x => ⟨bi + x.index, x.dataHash⟩) := by
  intro txs
  induction txs with
  | nil => intro bi; rfl
  | cons tx txs ih =>
    intro bi
    have htail : ∀ c : Nat,
        (specIndexedHashes batchInboxAddress batcherAddr (tx :: txs)) =
          (if tx.to? = some batchInboxAddress ∧ tx.sender? = some batcherAddr
            then (List.range tx.blobHashes.length).map
              (fun j => ⟨j, tx.blobHashes.getD j 0⟩)
            else []) ++
          (specIndexedHashes batchInboxAddress batcherAddr txs).map
            (fun x => ⟨txBlobCount tx + x.index, x.dataHash⟩) := by
      intro _c
      simp only [specIndexedHashes, List.length_cons, List.range_succ_eq_map,
        List.map_cons, List.flatten_cons, List.map_map]
      congr 1
      · simp only [List.getD_cons_zero, prefixBlobCount, List.take_zero,
          List.map_nil, List.sum_nil]
        by_cases hc : tx.to? = some batchInboxAddress ∧
            tx.sender? = some batcherAddr
        · rw [if_pos hc, if_pos hc]
          apply List.map_congr_left
          intro j _
          simp
        · rw [if_neg hc, if_neg hc]
      · rw [List.map_flatten, List.map_map]
        congr 1
        apply List.map_congr_left
        intro i _
        simp only [Function.comp_apply, List.getD_cons_succ]
        by_cases hc : (txs.getD i ⟨none, none, [], []⟩).to? = some batchInboxAddress ∧
            (txs.getD i ⟨none, none, [], []⟩).sender? = some batcherAddr
        · rw [if_pos hc, if_pos hc, List.map_map]
          apply List.map_congr_left
          intro j _
          simp only [Function.comp_apply]
          congr 1
          simp only [prefixBlobCount, List.take_succ_cons, List.map_cons,
            List.sum_cons, txBlobCount]
          omega
        · rw [if_neg hc, if_neg hc]
          simp
    rw [htail 0]
    simp only [blobDataLoop]
    by_cases h1 : tx.to? = some batchInboxAddress
    · rw [if_pos h1]
      by_cases h2 : isValidBatchTx tx batcherAddr
      · rw [if_neg (by simp [h2]), ih (bi + tx.blobHashes.length)]
        have hc : tx.to? = some batchInboxAddress ∧
            tx.sender? = some batcherAddr := by
          refine ⟨h1, ?_⟩
          simpa [isValidBatchTx] using h2
        rw [if_pos hc, List.map_append, emitHashes_eq]
        congr 1
        · rw [List.map_map]
          apply List.map_congr_left
          intro j _
          simp
        · rw [List.map_map]
          apply List.map_congr_left
          intro x _
          simp only [Function.comp_apply, txBlobCount]
          congr 1
          omega
      · rw [if_pos (by simp [h2]), ih (bi + tx.blobHashes.length)]
        have hc : ¬ (tx.to? = some batchInboxAddress ∧
            tx.sender? = some batcherAddr) := by
          rintro ⟨-, hs⟩
          exact h2 (by simp [isValidBatchTx, hs])
        rw [if_neg hc, List.nil_append, List.map_map]
        apply List.map_congr_left
        intro x _
        simp only [Function.comp_apply, txBlobCount]
        congr 1
        omega
    · rw [if_neg h1, ih (bi + tx.blobHashes.length)]
      have hc : ¬ (tx.to? = some batchInboxAddress ∧
          tx.sender? = some batcherAddr) := fun h => h1 h.1
      rw [if_neg hc, List.nil_append, List.map_map]
      apply List.map_congr_left
      intro x _
      simp only [Function.comp_apply, txBlobCount]
      congr 1
      omega

/-- C6 (Adapter blob-index correctness): `BlobDataFromEVMTransactions`
returns exactly the blob hashes of transactions whose `to` is the
batch-inbox address and whose recovered sender is the batcher address, in
transaction and then blob-hash order, each hash indexed by the number of
blob hashes attached to all earlier transactions in the block plus its
position within its own transaction (skipped transactions still advance
the counter by their blob-hash count). -/
theorem C6_blob_index_correct (batchInboxAddress batcherAddr : Nat)
    (txs : List Tx) :
    BlobDataFromEVMTransactions batchInboxAddress batcherAddr txs =
      specIndexedHashes batchInboxAddress batcherAddr txs := by
  rw [BlobDataFromEVMTransactions, blobDataLoop_eq]
  apply List.ext_getElem (by simp)
  intro i h1 h2
  simp

/-! ## Versioned batcher hash (`ReadVersionedBatcherHash`) -/

/-- Errors of `ReadVersionedBatcherHash` (Go wraps them in formatted
strings; the embedding tags them). -/
inductive VBHError where
  | readFailed
  | unknownVersion (b0 : Nat)
  | unknownByteOne (b1 : Nat)
  | paddingNotEmpty
deriving DecidableEq, Repr

/-- Modelled from the spec: `solabi.ReadAddressWithPadding` is not among
the given source files.  Per the spec's layout ("12 bytes of padding then
20-byte address"), it reads one 32-byte word from the reader, returning
the trailing 20-byte address, the 12 leading padding bytes, and the
remaining input; it fails if fewer than 32 bytes are available. -/
def ReadAddressWithPadding (input : List Nat) :
    Except VBHError (List Nat × List Nat × List Nat) :=
  if input.length < 32 then .error .readFailed
  else .ok ((input.take 32).drop 12, input.take 12, input.drop 32)

/-- `addressPadding` from the source: 12 zero bytes. -/
def addressPadding : List Nat := List.replicate 12 0

/-- `ReadVersionedBatcherHash` from the derivation source: reads a 32-byte
versioned batcher hash.  All-zero padding is version 0 (blobs not
allowed).  Otherwise padding byte 0 must be 1 (version 1), padding byte 1
selects "blobs allowed" (`1` = yes, `0` = no, anything else is an error),
and padding bytes 2-11 must be zero.  Returns
`(version, address, useBlobs, remaining input)`. -/
def ReadVersionedBatcherHash (input : List Nat) :
    Except VBHError (Nat × List Nat × Bool × List Nat) :=
  match ReadAddressWithPadding input with
  | .error e => .error e
  | .ok (a, padding, rest) =>
    if padding = addressPadding then .ok (0, a, false, rest)
    else if padding.getD 0 0 ≠ 1 then .error (.unknownVersion (padding.getD 0 0))
    else
      match (if padding.getD 1 0 = 1 then some true
        else if padding.getD 1 0 = 0 then some false else none) with
      | none => .error (.unknownByteOne (padding.getD 1 0))
      | some useBlobs =>
        if padding.drop 2 = addressPadding.drop 2 then
          .ok (1, a, useBlobs, rest)
        else .error .paddingNotEmpty

theorem vbh_unfold (input : List Nat) (hlen : input.length = 32) :
    ReadVersionedBatcherHash input =
      (if input.take 12 = addressPadding then
        .ok (0, input.drop 12, false, ([] : List Nat))
      else if (input.take 12).getD 0 0 ≠ 1 then
        .error (.unknownVersion ((input.take 12).getD 0 0))
      else
        match (if (input.take 12).getD 1 0 = 1 then some true
          else if (input.take 12).getD 1 0 = 0 then some false else none) with
        | none => .error (.unknownByteOne ((input.take 12).getD 1 0))
        | some useBlobs =>
          if (input.take 12).drop 2 = addressPadding.drop 2 then
            .ok (1, input.drop 12, useBlobs, [])
          else .error .paddingNotEmpty) := by
  have htake : input.take 32 = input := List.take_of_length_le (by omega)
  have hdrop : input.drop 32 = [] := List.drop_eq_nil_of_le (by omega)
  rw [ReadVersionedBatcherHash, ReadAddressWithPadding, if_neg (by omega)]
  simp only [htake, hdrop]

theorem vbh_allzero (input : List Nat) (hlen : input.length = 32)
    (hz : input.take 12 = List.replicate 12 0) :
    ReadVersionedBatcherHash input = .ok (0, input.drop 12, false, []) := by
  rw [vbh_unfold input hlen,
    if_pos (show input.take 12 = addressPadding by rw [hz]; decide)]

theorem vbh_v1_noblobs (input : List Nat) (hlen : input.length = 32)
    (h0 : (input.take 12).getD 0 0 = 1)
    (h2 : (input.take 12).drop 2 = List.replicate 10 0)
    (h1 : (input.take 12).getD 1 0 = 0) :
    ReadVersionedBatcherHash input = .ok (1, input.drop 12, false, []) := by
  have hne : ¬ input.take 12 = addressPadding := fun he => by
    rw [he] at h0
    exact absurd h0 (by decide)
  rw [vbh_unfold input hlen, if_neg hne, if_neg (by omega),
    if_neg (by omega), if_pos h1]
  simp only []
  rw [if_pos (by rw [h2]; decide)]

theorem vbh_v1_blobs (input : List Nat) (hlen : input.length = 32)
    (h0 : (input.take 12).getD 0 0 = 1)
    (h2 : (input.take 12).drop 2 = List.replicate 10 0)
    (h1 : (input.take 12).getD 1 0 = 1) :
    ReadVersionedBatcherHash input = .ok (1, input.drop 12, true, []) := by
  have hne : ¬ input.take 12 = addressPadding := fun he => by
    rw [he] at h0
    exact absurd h0 (by decide)
  rw [vbh_unfold input hlen, if_neg hne, if_neg (by omega), if_pos h1]
  simp only []
  rw [if_pos (by rw [h2]; decide)]

theorem vbh_err_version (input : List Nat) (hlen : input.length = 32)
    (hz : ¬ input.take 12 = List.replicate 12 0)
    (h0 : (input.take 12).getD 0 0 ≠ 1) :
    ReadVersionedBatcherHash input =
      .error (.unknownVersion ((input.take 12).getD 0 0)) := by
  rw [vbh_unfold input hlen, if_neg (fun he => hz (he.trans rfl)), if_pos h0]

theorem vbh_err_byteOne (input : List Nat) (hlen : input.length = 32)
    (h0 : (input.take 12).getD 0 0 = 1)
    (h1 : (input.take 12).getD 1 0 ≠ 0) (h1b : (input.take 12).getD 1 0 ≠ 1) :
    ReadVersionedBatcherHash input =
      .error (.unknownByteOne ((input.take 12).getD 1 0)) := by
  have hne : ¬ input.take 12 = addressPadding := fun he => by
    rw [he] at h0
    exact absurd h0 (by decide)
  rw [vbh_unfold input hlen, if_neg hne, if_neg (by omega), if_neg h1b,
    if_neg h1]

theorem vbh_err_padding (input : List Nat) (hlen : input.length = 32)
    (h0 : (input.take 12).getD 0 0 = 1)
    (h1 : (input.take 12).getD 1 0 = 0 ∨ (input.take 12).getD 1 0 = 1)
    (h2 : ¬ (input.take 12).drop 2 = List.replicate 10 0) :
    ReadVersionedBatcherHash input = .error .paddingNotEmpty := by
  have hne : ¬ input.take 12 = addressPadding := fun he => by
    rw [he] at h0
    exact absurd h0 (by decide)
  have h2b : ¬ (input.take 12).drop 2 = addressPadding.drop 2 := fun he => by
    rw [show addressPadding.drop 2 = List.replicate 10 0 by decide] at he
    exact h2 he
  rcases h1 with h1 | h1
  · rw [vbh_unfold input hlen, if_neg hne, if_neg (by omega),
      if_neg (by omega), if_pos h1]
    simp only []
    rw [if_neg h2b]
  · rw [vbh_unfold input hlen, if_neg hne, if_neg (by omega), if_pos h1]
    simp only []
    rw [if_neg h2b]

/-- C7 (Versioned batcher hash parsing): on a 32-byte input laid out as 12
padding bytes then a 20-byte address, parsing succeeds exactly when the
padding is all zero (giving version 0, blobs not allowed) or padding byte
0 is 1, padding byte 1 is 0 or 1 and padding bytes 2-11 are zero (giving
version 1, blobs allowed iff byte 1 is 1); every other padding fails, and
on success the returned address is the trailing 20 bytes. -/
theorem C7_versioned_batcher_hash (input : List Nat)
    (hlen : input.length = 32) :
    ((∃ v a ub rest, ReadVersionedBatcherHash input = .ok (v, a, ub, rest)) ↔
      (input.take 12 = List.replicate 12 0 ∨
        ((input.take 12).getD 0 0 = 1 ∧
          ((input.take 12).getD 1 0 = 0 ∨ (input.take 12).getD 1 0 = 1) ∧
          (input.take 12).drop 2 = List.replicate 10 0))) ∧
    (input.take 12 = List.replicate 12 0 →
      ReadVersionedBatcherHash input = .ok (0, input.drop 12, false, [])) ∧
    ((input.take 12).getD 0 0 = 1 →
      (input.take 12).drop 2 = List.replicate 10 0 →
      (input.take 12).getD 1 0 = 0 →
      ReadVersionedBatcherHash input = .ok (1, input.drop 12, false, [])) ∧
    ((input.take 12).getD 0 0 = 1 →
      (input.take 12).drop 2 = List.replicate 10 0 →
      (input.take 12).getD 1 0 = 1 →
      ReadVersionedBatcherHash input = .ok (1, input.drop 12, true, [])) := by
  refine ⟨⟨?_, ?_⟩, vbh_allzero input hlen, vbh_v1_noblobs input hlen,
    vbh_v1_blobs input hlen⟩
  · rintro ⟨v, a, ub, rest, hok⟩
    by_cases hz : input.take 12 = List.replicate 12 0
    · exact Or.inl hz
    · by_cases h0 : (input.take 12).getD 0 0 = 1
      · by_cases h1 : (input.take 12).getD 1 0 = 0 ∨ (input.take 12).getD 1 0 = 1
        · by_cases h2 : (input.take 12).drop 2 = List.replicate 10 0
          · exact Or.inr ⟨h0, h1, h2⟩
          · rw [vbh_err_padding input hlen h0 h1 h2] at hok
            exact absurd hok (by simp)
        · rw [vbh_err_byteOne input hlen h0 (fun h => h1 (Or.inl h))
            (fun h => h1 (Or.inr h))] at hok
          exact absurd hok (by simp)
      · rw [vbh_err_version input hlen hz h0] at hok
        exact absurd hok (by simp)
  · rintro (hz | ⟨h0, h1 | h1, h2⟩)
    · exact ⟨0, input.drop 12, false, [], vbh_allzero input hlen hz⟩
    · exact ⟨1, input.drop 12, false, [], vbh_v1_noblobs input hlen h0 h2 h1⟩
    · exact ⟨1, input.drop 12, true, [], vbh_v1_blobs input hlen h0 h2 h1⟩

/-- Witness for C7 at the all-zero 32-byte word. -/
theorem C7_versioned_batcher_hash_witness :
    (List.replicate 32 (0 : Nat)).length = 32 ∧
    ((List.replicate 32 (0 : Nat)).take 12 = List.replicate 12 0 ∧
      ReadVersionedBatcherHash (List.replicate 32 (0 : Nat)) =
        .ok (0, (List.replicate 32 (0 : Nat)).drop 12, false, [])) :=
  ⟨by decide,
    by decide,
    (C7_versioned_batcher_hash (List.replicate 32 0) (by decide)).2.1 (by decide)⟩

/-! ## System-config update events (`ProcessSystemConfigUpdateLogEvent`) -/

/-- `eth.SystemConfig`, restricted to the fields the derivation code
assigns: batcher address (20 bytes), batcher-hash version, the
"blobs allowed" flag, fee overhead and scalar (32-byte words as values),
and the L2 gas limit. -/
structure SystemConfig where
  batcherAddr : List Nat
  batcherHashVersion : Nat
  canUseBlobs : Bool
  overhead : Nat
  scalar : Nat
  gasLimit : Nat
deriving DecidableEq, Repr

/-- A `types.Log` entry, restricted to the fields the decoder reads: the
topic hashes (as 256-bit values) and the ABI-encoded data bytes. -/
structure Log where
  topics : List Nat
  data : List Nat

/-- Big-endian value of a byte list. -/
def beValue (l : List Nat) : Nat := l.foldl (fun acc x => acc * 256 + x) 0

/-- Modelled from the spec: `solabi.ReadUint64` is not among the given
source files.  It reads one 32-byte ABI word whose big-endian value must
fit in 64 bits (24 zero padding bytes then 8 value bytes), returning the
value and the remaining input. -/
def solabiReadUint64 (input : List Nat) : Except Unit (Nat × List Nat) :=
  if 32 ≤ input.length then
    if beValue (input.take 32) < 2 ^ 64 then
      .ok (beValue (input.take 32), input.drop 32)
    else .error ()
  else .error ()

/-- Modelled from the spec: `solabi.ReadEthBytes32` is not among the given
source files.  It reads one 32-byte word, returned as its big-endian
value, together with the remaining input. -/
def solabiReadEthBytes32 (input : List Nat) : Except Unit (Nat × List Nat) :=
  if 32 ≤ input.length then .ok (beValue (input.take 32), input.drop 32)
  else .error ()

/-- Modelled from the spec: `solabi.EmptyReader` is not among the given
source files.  It reports whether the reader has no bytes left. -/
def solabiEmptyReader (input : List Nat) : Bool := input.isEmpty

/-- `SystemConfigUpdateBatcher = common.Hash{31: 0}`: the 32-byte word
whose value is 0.  Likewise for the other update-type tags. -/
def SystemConfigUpdateBatcher : Nat := 0

def SystemConfigUpdateGasConfig : Nat := 1

def SystemConfigUpdateGasLimit : Nat := 2

def SystemConfigUpdateUnsafeBlockSigner : Nat := 3

/-- `ConfigUpdateEventVersion0 = common.Hash{}`: the zero word. -/
def ConfigUpdateEventVersion0 : Nat := 0

/-- Modelled from the source constant
`crypto.Keccak256Hash([]byte("ConfigUpdate(uint256,uint8,bytes)"))`: the
hash function itself is external, so the embedding uses the concrete
256-bit digest value as an opaque constant (all that matters is that it
differs from the small update-type tag words). -/
def ConfigUpdateEventABIHash : Nat :=
  0x1d2b0bda21d56b8bd12d4f94ebacffdfb35f5e226f84b461103bb8beab6353be

/-- Errors of `ProcessSystemConfigUpdateLogEvent`: the three topic checks,
`CriticalError` for malformed unindexed data, and the unknown-type
fallthrough. -/
inductive ProcErr where
  | badTopicCount (n : Nat)
  | badEventHash (got : Nat)
  | badVersion (got : Nat)
  | critical
  | unknownUpdateType (got : Nat)
deriving DecidableEq, Repr

/-- `ProcessSystemConfigUpdateLogEvent` from the derivation source: decodes
a `ConfigUpdate` log event and applies it to the system config.  The Go
function mutates `destSysCfg` and returns an `error`; the embedding
returns the updated config (or the untouched one where Go leaves it
unmodified). -/
def ProcessSystemConfigUpdateLogEvent (destSysCfg : SystemConfig) (ev : Log) :
    Except ProcErr SystemConfig :=
  if ev.topics.length ≠ 3 then .error (.badTopicCount ev.topics.length)
  else if ev.topics.getD 0 0 ≠ ConfigUpdateEventABIHash then
    .error (.badEventHash (ev.topics.getD 0 0))
  else if ev.topics.getD 1 0 ≠ ConfigUpdateEventVersion0 then
    .error (.badVersion (ev.topics.getD 1 0))
  else
    let updateType := ev.topics.getD 2 0
    if updateType = SystemConfigUpdateBatcher then
      match solabiReadUint64 ev.data with
      | .error _ => .error .critical
      | .ok (pointer, r1) =>
        if pointer ≠ 32 then .error .critical
        else match solabiReadUint64 r1 with
        | .error _ => .error .critical
        | .ok (length, r2) =>
          if length ≠ 32 then .error .critical
          else match ReadVersionedBatcherHash r2 with
          | .error _ => .error .critical
          | .ok (v, a, ub, r3) =>
            if ¬ solabiEmptyReader r3 then .error .critical
            else .ok ⟨a, v, ub, destSysCfg.overhead, destSysCfg.scalar,
              destSysCfg.gasLimit⟩
    else if updateType = SystemConfigUpdateGasConfig then
      match solabiReadUint64 ev.data with
      | .error _ => .error .critical
      | .ok (pointer, r1) =>
        if pointer ≠ 32 then .error .critical
        else match solabiReadUint64 r1 with
        | .error _ => .error .critical
        | .ok (length, r2) =>
          if length ≠ 64 then .error .critical
          else match solabiReadEthBytes32 r2 with
          | .error _ => .error .critical
          | .ok (overhead, r3) =>
            match solabiReadEthBytes32 r3 with
            | .error _ => .error .critical
            | .ok (scalar, r4) =>
              if ¬ solabiEmptyReader r4 then .error .critical
              else .ok ⟨destSysCfg.batcherAddr, destSysCfg.batcherHashVersion,
                destSysCfg.canUseBlobs, overhead, scalar, destSysCfg.gasLimit⟩
    else if updateType = SystemConfigUpdateGasLimit then
      match solabiReadUint64 ev.data with
      | .error _ => .error .critical
      | .ok (pointer, r1) =>
        if pointer ≠ 32 then .error .critical
        else match solabiReadUint64 r1 with
        | .error _ => .error .critical
        | .ok (length, r2) =>
          if length ≠ 32 then .error .critical
          else match solabiReadUint64 r2 with
          | .error _ => .error .critical
          | .ok (gasLimit, r3) =>
            if ¬ solabiEmptyReader r3 then .error .critical
            else .ok ⟨destSysCfg.batcherAddr, destSysCfg.batcherHashVersion,
              destSysCfg.canUseBlobs, destSysCfg.overhead, destSysCfg.scalar,
              gasLimit⟩
    else if updateType = SystemConfigUpdateUnsafeBlockSigner then
      .ok destSysCfg
    else .error (.unknownUpdateType updateType)

/-- One well-formed ABI word holding a 64-bit value: 24 zero bytes then 8
big-endian value bytes. -/
def abiU64Word (n : Nat) : List Nat :=
  List.replicate 24 0 ++
    [n / 2 ^ 56 % 256, n / 2 ^ 48 % 256, n / 2 ^ 40 % 256, n / 2 ^ 32 % 256,
      n / 2 ^ 24 % 256, n / 2 ^ 16 % 256, n / 2 ^ 8 % 256, n % 256]

theorem abiU64Word_length (n : Nat) : (abiU64Word n).length = 32 := by
  simp [abiU64Word]

theorem beValue_abiU64Word (n : Nat) (h : n < 2 ^ 64) :
    beValue (abiU64Word n) = n := by
  have h24 : (List.replicate 24 (0 : Nat)).foldl
      (fun acc x => acc * 256 + x) 0 = 0 := by decide
  simp only [abiU64Word, beValue, List.foldl_append, h24, List.foldl_cons,
    List.foldl_nil]
  omega

theorem solabiReadUint64_word (n : Nat) (h : n < 2 ^ 64) (rest : List Nat) :
    solabiReadUint64 (abiU64Word n ++ rest) = .ok (n, rest) := by
  have hlen := abiU64Word_length n
  rw [solabiReadUint64, if_pos (by simp only [List.length_append, hlen]; omega),
    List.take_left' hlen, List.drop_left' hlen, beValue_abiU64Word n h,
    if_pos h]

/-- C10 (Gas-limit update frame): for a well-formed `ConfigUpdate` event of
type `SystemConfigUpdateGasLimit` (pointer word 32, length word 32, one
64-bit gas limit, no trailing bytes), `ProcessSystemConfigUpdateLogEvent`
succeeds and the resulting config changes only the `GasLimit` field;
`BatcherAddr`, `BatcherHashVersion`, `CanUseBlobs`, `Overhead` and
`Scalar` are taken unchanged from the input config. -/
theorem C10_gas_limit_frame (cfg : SystemConfig) (g : Nat) (hg : g < 2 ^ 64) :
    ProcessSystemConfigUpdateLogEvent cfg
      ⟨[ConfigUpdateEventABIHash, ConfigUpdateEventVersion0,
          SystemConfigUpdateGasLimit],
        abiU64Word 32 ++ (abiU64Word 32 ++ abiU64Word g)⟩ =
      .ok ⟨cfg.batcherAddr, cfg.batcherHashVersion, cfg.canUseBlobs,
        cfg.overhead, cfg.scalar, g⟩ := by
  rw [ProcessSystemConfigUpdateLogEvent]
  simp only []
  rw [if_neg (by decide), if_neg (by simp), if_neg (by decide)]
  rw [if_neg (by decide), if_neg (by decide), if_pos (by decide)]
  rw [solabiReadUint64_word 32 (by decide) _]
  simp only []
  rw [if_neg (by decide), solabiReadUint64_word 32 (by decide) _]
  simp only []
  rw [if_neg (by decide)]
  have hlast : solabiReadUint64 (abiU64Word g) = .ok (g, []) := by
    have := solabiReadUint64_word g hg []
    rwa [List.append_nil] at this
  rw [hlast]
  simp only []
  rw [if_neg (by simp [solabiEmptyReader])]

/-- Witness for C10 at a concrete config and gas limit 100. -/
theorem C10_gas_limit_frame_witness :
    (100 : Nat) < 2 ^ 64 ∧
    ProcessSystemConfigUpdateLogEvent ⟨[1, 2], 3, true, 4, 5, 6⟩
      ⟨[ConfigUpdateEventABIHash, ConfigUpdateEventVersion0,
          SystemConfigUpdateGasLimit],
        abiU64Word 32 ++ (abiU64Word 32 ++ abiU64Word 100)⟩ =
      .ok ⟨[1, 2], 3, true, 4, 5, 100⟩ :=
  ⟨by norm_num, C10_gas_limit_frame ⟨[1, 2], 3, true, 4, 5, 6⟩ 100 (by norm_num)⟩

end Derive

